import Mathlib

/-!
# Verification of the `ref_check` citation/reference engine

A shallow embedding of the extraction-and-matching core of `ref_check.py`
(citation recognizers, author/year key model, fuzzy matcher, span locator,
reference extractor with year-suffix auto-assignment, run splitting and
highlighting, learned cross-match reclassification), together with theorems
settling the specification claims about it.

Python strings are modelled as `List Char` (Python indexes by code point, as
does `List Char`).  Python's `re` patterns are modelled by a small
backtracking matcher over `List Char`: a pattern is a function from a state
to the list of all possible successor states in Python's backtracking
priority order (greedy repetition tries longer matches first, alternation
tries alternatives left to right), so the head of the result list is exactly
the match Python's engine returns.  ASCII character classes model the
Unicode-aware Python classes; all inputs relevant to the claims are ASCII
apart from the zero-width/typographic code points the source itself names.
-/

set_option maxHeartbeats 1000000

namespace RefCheck

/-! ## Character classes (ASCII models of Python's classes) -/

def isUp (c : Char) : Bool := 'A' ≤ c && c ≤ 'Z'

def isLo (c : Char) : Bool := 'a' ≤ c && c ≤ 'z'

def isDg (c : Char) : Bool := '0' ≤ c && c ≤ '9'

/-- Python `\s` (ASCII part). -/
def isWsC (c : Char) : Bool :=
  c = ' ' || c = '\t' || c = '\n' || c = '\x0d' || c = '\x0b' || c = '\x0c'

/-- Python `\w` (ASCII part). -/
def isWd (c : Char) : Bool := isUp c || isLo c || isDg c || c = '_'

def lowerC (c : Char) : Char :=
  if c = 'A' then 'a'
  else if c = 'B' then 'b'
  else if c = 'C' then 'c'
  else if c = 'D' then 'd'
  else if c = 'E' then 'e'
  else if c = 'F' then 'f'
  else if c = 'G' then 'g'
  else if c = 'H' then 'h'
  else if c = 'I' then 'i'
  else if c = 'J' then 'j'
  else if c = 'K' then 'k'
  else if c = 'L' then 'l'
  else if c = 'M' then 'm'
  else if c = 'N' then 'n'
  else if c = 'O' then 'o'
  else if c = 'P' then 'p'
  else if c = 'Q' then 'q'
  else if c = 'R' then 'r'
  else if c = 'S' then 's'
  else if c = 'T' then 't'
  else if c = 'U' then 'u'
  else if c = 'V' then 'v'
  else if c = 'W' then 'w'
  else if c = 'X' then 'x'
  else if c = 'Y' then 'y'
  else if c = 'Z' then 'z'
  else c

def upperC (c : Char) : Char :=
  if c = 'a' then 'A'
  else if c = 'b' then 'B'
  else if c = 'c' then 'C'
  else if c = 'd' then 'D'
  else if c = 'e' then 'E'
  else if c = 'f' then 'F'
  else if c = 'g' then 'G'
  else if c = 'h' then 'H'
  else if c = 'i' then 'I'
  else if c = 'j' then 'J'
  else if c = 'k' then 'K'
  else if c = 'l' then 'L'
  else if c = 'm' then 'M'
  else if c = 'n' then 'N'
  else if c = 'o' then 'O'
  else if c = 'p' then 'P'
  else if c = 'q' then 'Q'
  else if c = 'r' then 'R'
  else if c = 's' then 'S'
  else if c = 't' then 'T'
  else if c = 'u' then 'U'
  else if c = 'v' then 'V'
  else if c = 'w' then 'W'
  else if c = 'x' then 'X'
  else if c = 'y' then 'Y'
  else if c = 'z' then 'Z'
  else c

/-! ## Python string helpers over `List Char` -/

/-- Python `str.strip()` (whitespace on both ends). -/
def stripL (s : List Char) : List Char :=
  ((s.dropWhile isWsC).reverse.dropWhile isWsC).reverse

/-- Python `str.rstrip(c)` for a single character. -/
def rstripC (c : Char) (s : List Char) : List Char :=
  (s.reverse.dropWhile (fun x => x = c)).reverse

/-- Python `str.lower()` over a char list. -/
def lowerL (s : List Char) : List Char := s.map lowerC

/-- Python `s.split(sep)` on a one-character separator (keeps empty pieces). -/
def splitC (c : Char) : List Char → List (List Char)
  | [] => [[]]
  | x :: xs =>
    if x = c then [] :: splitC c xs
    else
      match splitC c xs with
      | [] => [[x]]
      | p :: ps => (x :: p) :: ps

/-- Python `s.split()` (split on whitespace runs, dropping empties). -/
def splitWs : List Char → List (List Char)
  | [] => []
  | x :: xs =>
    if isWsC x then splitWs xs
    else
      match splitWs xs with
      | [] => [[x]]
      | p :: ps =>
        match xs with
        | [] => [[x]]
        | y :: _ => if isWsC y then [x] :: p :: ps else (x :: p) :: ps

/-- Index of the first position where `needle` starts in `s`, if any. -/
def findSub (needle : List Char) : List Char → Option Nat
  | [] => if needle = [] then some 0 else none
  | x :: xs =>
    if needle.isPrefixOf (x :: xs) then some 0
    else (findSub needle xs).map (· + 1)

/-- Python `s.split(sep)[0]` for a multi-character separator. -/
def takeUntilSub (needle s : List Char) : List Char :=
  match findSub needle s with
  | some i => s.take i
  | none => s

end RefCheck

namespace RefCheck

/-! ## A backtracking matcher for the source's `re` patterns

A matcher state is the remaining input together with the numbered group
captures recorded so far (latest capture first, as Python keeps the last
value a group matched).  A pattern maps a state to all successor states in
backtracking priority order. -/

structure MSt where
  rem : List Char
  caps : List (Nat × List Char)
deriving DecidableEq

abbrev Pat := MSt → List MSt

/-- Empty pattern: matches nothing, consumes nothing. -/
def eps : Pat := fun st => [st]

/-- A single character from a class. -/
def cls (f : Char → Bool) : Pat := fun st =>
  match st.rem with
  | [] => []
  | c :: r => if f c then [⟨r, st.caps⟩] else []

/-- A single literal character. -/
def chC (c : Char) : Pat := cls (fun x => x = c)

/-- Sequencing (regex concatenation). -/
def pseq (p q : Pat) : Pat := fun st => (p st).flatMap q

/-- Concatenation of a list of patterns. -/
def seqs (ps : List Pat) : Pat := ps.foldr pseq eps

/-- Alternation, left branch preferred (Python `|`). -/
def alt (p q : Pat) : Pat := fun st => p st ++ q st

/-- Alternation over a list, first alternative preferred. -/
def alts (ps : List Pat) : Pat := ps.foldr alt (fun _ => [])

/-- Greedy option (Python `?`): taking the branch is preferred. -/
def opt (p : Pat) : Pat := alt p eps

/-- Greedy star, fuelled; each iteration must consume input (Python's
engine likewise refuses empty-match loops).  More iterations preferred. -/
def starGo (p : Pat) : Nat → Pat
  | 0 => eps
  | n + 1 => fun st =>
    (((p st).filter (fun st2 => st2.rem.length < st.rem.length)).flatMap
      (starGo p n)) ++ [st]

/-- Greedy star (Python `*`). -/
def star (p : Pat) : Pat := fun st => starGo p st.rem.length st

/-- Greedy plus (Python `+`). -/
def plus (p : Pat) : Pat := pseq p (star p)

/-- Greedy bounded repetition (Python `{0,n}`). -/
def repMax (p : Pat) : Nat → Pat
  | 0 => eps
  | n + 1 => fun st =>
    (((p st).filter (fun st2 => st2.rem.length < st.rem.length)).flatMap
      (repMax p n)) ++ [st]

/-- Negative lookahead (Python `(?!...)`): zero-width. -/
def negLa (p : Pat) : Pat := fun st => if (p st).isEmpty then [st] else []

/-- Literal string. -/
def lit (w : String) : Pat := w.data.foldr (fun c m => pseq (chC c) m) eps

/-- Case-insensitive literal string (Python `re.IGNORECASE`). -/
def litI (w : String) : Pat :=
  w.data.foldr (fun c m => pseq (cls (fun x => lowerC x = lowerC c)) m) eps

/-- Numbered capture group (Python `( ... )`). -/
def grp (n : Nat) (p : Pat) : Pat := fun st =>
  (p st).map (fun st2 =>
    ⟨st2.rem, (n, st.rem.take (st.rem.length - st2.rem.length)) :: st2.caps⟩)

/-- Value of group `n` (latest capture; `[]` if the group did not match). -/
def getCap (n : Nat) (caps : List (Nat × List Char)) : List Char :=
  ((caps.find? (fun e => e.1 = n)).map (fun e => e.2)).getD []

/-- One match attempt anchored at position `i` of `s` (Python `re.match`
at that offset): returns the end position and the captures. -/
def matchAt (p : Pat) (s : List Char) (i : Nat) :
    Option (Nat × List (Nat × List Char)) :=
  match p ⟨s.drop i, []⟩ with
  | [] => none
  | st :: _ => some (i + ((s.drop i).length - st.rem.length), st.caps)

structure MatchRes where
  start : Nat
  stop : Nat
  caps : List (Nat × List Char)
deriving DecidableEq

/-- Leftmost match at or after position `i` (fuelled scan). -/
def findFromGo (p : Pat) (s : List Char) : Nat → Nat → Option MatchRes
  | 0, _ => none
  | fuel + 1, i =>
    match matchAt p s i with
    | some (e, caps) => some ⟨i, e, caps⟩
    | none => findFromGo p s fuel (i + 1)

/-- Leftmost match at or after position `i` (Python `re.search` when
`i = 0`). -/
def findFrom (p : Pat) (s : List Char) (i : Nat) : Option MatchRes :=
  findFromGo p s (s.length + 1 - i) i

/-- Python `re.search`. -/
def reSearch (p : Pat) (s : List Char) : Option MatchRes := findFrom p s 0

/-- All non-overlapping matches from position `i` on (fuelled). -/
def finditerGo (p : Pat) (s : List Char) : Nat → Nat → List MatchRes
  | 0, _ => []
  | fuel + 1, i =>
    match findFrom p s i with
    | none => []
    | some m =>
      m :: finditerGo p s fuel (if m.start < m.stop then m.stop else m.start + 1)

/-- Python `re.finditer`. -/
def finditer (p : Pat) (s : List Char) : List MatchRes :=
  finditerGo p s (s.length + 1) 0

/-- Python `re.findall` for a pattern with a single group: the list of
group-1 captures. -/
def findall1 (p : Pat) (s : List Char) : List (List Char) :=
  (finditer p s).map (fun m => getCap 1 m.caps)

/-- Python `re.split(pat, s)[0]`: the prefix before the first match. -/
def splitHead (p : Pat) (s : List Char) : List Char :=
  match reSearch p s with
  | some m => s.take m.start
  | none => s

end RefCheck

namespace RefCheck

/-! ## Text normalization (`normalize_text`, `normalize_for_highlight`) -/

/-- The 1:1 typographic substitutions shared by both normalizers. -/
def normMap (c : Char) : Char :=
  if c = '‘' || c = '’' then '\''
  else if c = '“' || c = '”' then '"'
  else if c = '‐' || c = '‑' || c = '‒' || c = '–' then '-'
  else c

def isInvisible (c : Char) : Bool := c = '‏' || c = '‎' || c = '​'

/-- `normalize_text`: substitutions plus removal of invisible marks
(length may change). -/
def normalize_text (s : List Char) : List Char :=
  (s.map normMap).filter (fun c => !isInvisible c)

/-- `normalize_for_highlight`: the 1:1 substitutions only
(length preserved). -/
def normalize_for_highlight (s : List Char) : List Char := s.map normMap

/-! ## Author/year key model -/

/-- The static disciplinary stop-list `NOISE_WORDS`. -/
def NOISE_WORDS : List String :=
  [ "approaches", "therapy", "psychology", "modes", "vol", "eds",
    "chapter", "section", "page", "table", "figure", "note", "press",
    "cognitive", "relational", "behavioral", "emotional", "self",
    "individual", "interpersonal", "focused", "based", "oriented",
    "and", "the", "for", "with", "from", "into", "between",
    "also", "cited", "review", "example", "well", "see", "new",
    "other", "their", "these", "those", "such", "both", "each",
    "psychotherapy", "attachment", "schema", "technique", "model",
    "clinical", "therapeutic", "treatment", "practice", "research",
    "humanistic", "emotion-focused", "self-psychology", "self-psychology:",
    "psychoanalytic", "existential", "gestalt", "integrative",
    "dynamic", "experiential", "systemic", "narrative", "dialectical" ]

def lowerStr (s : String) : String := String.mk (lowerL s.data)

/-- `is_noise`: lowercase form in the stop-list, or length at most 2. -/
def is_noise (surname : String) : Bool :=
  NOISE_WORDS.contains (lowerStr surname) || surname.length ≤ 2

/-- `strip_year_suffix`: `re.sub(r'[a-z]$', '', year)`.  The `$` anchor
matches at the end of the string or just before a final newline. -/
def strip_year_suffix (year : String) : String :=
  match year.data.reverse with
  | c :: rest =>
    if isLo c then String.mk rest.reverse
    else if c = '\n' then
      match rest with
      | d :: rest2 =>
        if isLo d then String.mk (rest2.reverse ++ ['\n']) else year
      | [] => year
    else year
  | [] => year

/-- Whether `re.search(r'[a-z]$', year)` finds a match. -/
def endsLowerDollar (year : String) : Bool :=
  match year.data.reverse with
  | c :: rest =>
    if isLo c then true
    else if c = '\n' then
      match rest with
      | d :: _ => isLo d
      | [] => false
    else false
  | [] => false

/-- `normalize_surname`: strip, then capitalize the first character
(Python's `upper()` modelled on ASCII). -/
def normalize_surname (s : String) : String :=
  match stripL s.data with
  | [] => String.mk []
  | c :: rest => String.mk (upperC c :: rest)

/-- The hedge-phrase prefix pattern of `clean_author`
(`^(e\.g\.,?\s*|see\s+|cf\.\s*|for\s+review,?\s*see\s*|also\s+|as cited in\s+|as well as\s+)`,
case-insensitive; the outer group is irrelevant to the substitution). -/
def hedgeCleanRe : Pat :=
  alts [
    seqs [litI ("e.g."), opt (chC (',')), star (cls isWsC)],
    seqs [litI ("see"), plus (cls isWsC)],
    seqs [litI ("cf."), star (cls isWsC)],
    seqs [litI ("for"), plus (cls isWsC), litI ("review"), opt (chC (',')),
          star (cls isWsC), litI ("see"), star (cls isWsC)],
    seqs [litI ("also"), plus (cls isWsC)],
    seqs [litI ("as"), chC (' '), litI ("cited"), chC (' '), litI ("in"),
          plus (cls isWsC)],
    seqs [litI ("as"), chC (' '), litI ("well"), chC (' '), litI ("as"),
          plus (cls isWsC)] ]

/-- Drop a leading hedge phrase (the anchored `re.sub` of `clean_author`). -/
def dropHedge (s : List Char) : List Char :=
  match matchAt hedgeCleanRe s 0 with
  | some (e, _) => s.drop e
  | none => s

/-- Drop a trailing possessive marker: `re.sub(r"['’]s$", '', s)`. -/
def dropPossessive (s : List Char) : List Char :=
  match s.reverse with
  | c :: q :: rest =>
    if c = 's' && (q = '\'' || q = '’') then rest.reverse
    else if c = '\n' then
      match q, rest with
      | 's', q2 :: rest2 =>
        if q2 = '\'' || q2 = '’' then rest2.reverse ++ ['\n'] else s
      | _, _ => s
    else s
  | _ => s

/-- `clean_author`: strip, drop hedge prefix, strip, drop trailing commas,
strip, drop a possessive marker. -/
def clean_author (authorStr : String) : String :=
  let s := stripL authorStr.data
  let s := stripL (dropHedge s)
  let s := stripL (rstripC (',') s)
  String.mk (dropPossessive s)

def particles : List String :=
  ["van", "de", "den", "der", "von", "di", "la", "le", "el", "al"]

/-- First index of `v` in `l` (Python `list.index`; `l.length` if absent,
which the source never hits). -/
def idxOfL (v : List Char) : List (List Char) → Nat
  | [] => 0
  | x :: xs => if x = v then 0 else idxOfL v xs + 1

/-- `first_surname`: extract the lead author's surname from an author
string, capitalizing its first letter (except in the particle branch,
which the source returns unnormalized). -/
def first_surname (authorStr : String) : String :=
  let s1 := takeUntilSub (" et al".data) authorStr.data
  let s2 := stripL ((takeUntilSub (" and ".data)
              (takeUntilSub (" & ".data) s1)).takeWhile (fun c => c ≠ ','))
  let s3 := stripL (rstripC ('.') (stripL s2))
  let parts := splitWs s3
  match parts with
  | [] => normalize_surname (String.mk s3)
  | p0 :: _ =>
    let capParts := parts.filter (fun p => isUp (p.headD (' ')))
    if 2 ≤ capParts.length then
      let lastCap := capParts.getLastD []
      let idx := idxOfL lastCap parts
      if 0 < idx then
        let prev := lowerL (parts.getD (idx - 1) [])
        if particles.contains (String.mk prev) then
          String.mk (parts.getD (idx - 1) [] ++ [' '] ++ lastCap)
        else normalize_surname (String.mk lastCap)
      else normalize_surname (String.mk lastCap)
    else normalize_surname (String.mk p0)

end RefCheck

namespace RefCheck

/-! ## The source's regex patterns -/

/-- `\d{4}` -/
def d4 : Pat := seqs [cls isDg, cls isDg, cls isDg, cls isDg]

/-- `\d{4}[a-z]?` -/
def yearPat : Pat := pseq d4 (opt (cls isLo))

/-- `(\d{4}[a-z]?)` — the `re.findall` pattern for years in a segment. -/
def yearCap : Pat := grp 1 yearPat

/-- `[A-Z][a-z]+` -/
def capWord : Pat := pseq (cls isUp) (plus (cls isLo))

/-- `[A-Z][a-z]+(?:-[A-Z][a-z]+)?` -/
def capWordH : Pat := pseq capWord (opt (seqs [chC ('-'), capWord]))

def wsStar : Pat := star (cls isWsC)

def wsPlus : Pat := plus (cls isWsC)

/-- `(?:\s+(?:&|and)\s+[A-Z][a-z]+(?:-[A-Z][a-z]+)?)` -/
def andAuthor : Pat :=
  seqs [wsPlus, alt (chC ('&')) (lit ("and")), wsPlus, capWordH]

/-- `(?:\s+et\s+al\.?)` -/
def etAl : Pat :=
  seqs [wsPlus, lit ("et"), wsPlus, lit ("al"), opt (chC ('.'))]

/-- `(?:e\.g\.,?\s*|see\s+|cf\.?\s*)` — the hedge alternatives allowed
before the year in the narrative pattern. -/
def hedgeNarr : Pat :=
  alts [
    seqs [lit ("e.g."), opt (chC (',')), wsStar],
    seqs [lit ("see"), wsPlus],
    seqs [lit ("cf"), opt (chC ('.')), wsStar] ]

/-- `\d{4}[a-z]?(?:,\s*\d{4}[a-z]?)*` -/
def yearsList : Pat := pseq yearPat (star (seqs [chC (','), wsStar, yearPat]))

/-- Recognizer 1 (set building): `\(([^)]+)\)`. -/
def parenRe : Pat :=
  seqs [chC ('('), grp 1 (plus (cls (fun c => c ≠ ')'))), chC (')')]

/-- Recognizer 2 (both passes): the narrative pattern
`(?:([A-Z][a-z]+(?:-[A-Z][a-z]+)?)\s+)?([A-Z][a-z]+(?:-[A-Z][a-z]+)?(?:\s+(?:&|and)\s+[A-Z][a-z]+(?:-[A-Z][a-z]+)?)?(?:\s+et\s+al\.?)?)\s*\((?:e\.g\.,?\s*|see\s+|cf\.?\s*)?(\d{4}[a-z]?(?:,\s*\d{4}[a-z]?)*)\)`. -/
def narrativeRe : Pat :=
  seqs [opt (seqs [grp 1 capWordH, wsPlus]),
        grp 2 (seqs [capWordH, opt andAuthor, opt etAl]),
        wsStar, chC ('('), opt hedgeNarr, grp 3 yearsList, chC (')')]

/-- The bounded gap of the possessive pattern:
`(?:(?![A-Z][a-z]+(?:-[A-Z][a-z]+)?'s)[^(]){0,80}`. -/
def possGap : Pat :=
  repMax (pseq (negLa (seqs [capWordH, chC ('\''), chC ('s')]))
               (cls (fun c => c ≠ '('))) 80

/-- Recognizer 3 (both passes): the possessive pattern
`(?:([A-Z][a-z]+)\s+)?([A-Z][a-z]+)'s\s+(?:(?!...'s)[^(]){0,80}\(([^)]+)\)`. -/
def possessiveRe : Pat :=
  seqs [opt (seqs [grp 1 capWord, wsPlus]), grp 2 capWord,
        chC ('\''), chC ('s'), wsPlus, possGap,
        chC ('('), grp 3 (plus (cls (fun c => c ≠ ')'))), chC (')')]

/-- Recognizer 4a (both passes): the single-bracket pattern
`([A-Z][a-z]+(?:-[A-Z][a-z]+)?(?:,?\s*&?\s*[A-Z][a-z]+(?:-[A-Z][a-z]+)?)*(?:\s+et\s+al\.?)?)\s*\[(\d{4}[a-z]?)\]`. -/
def bracketARe : Pat :=
  seqs [grp 1 (seqs [capWordH,
                     star (seqs [opt (chC (',')), wsStar, opt (chC ('&')),
                                 wsStar, capWordH]),
                     opt etAl]),
        wsStar, chC ('['), grp 2 yearPat, chC (']')]

/-- Recognizer 4b (both passes): the multi-bracket pattern
`\[([^\]]*\d{4}[^\]]*;[^\]]*)\]`. -/
def bracketBRe : Pat :=
  seqs [chC ('['),
        grp 1 (seqs [star (cls (fun c => c ≠ ']')), d4,
                     star (cls (fun c => c ≠ ']')), chC (';'),
                     star (cls (fun c => c ≠ ']'))]),
        chC (']')]

/-- Recognizer 5 (both passes):
`([A-Z][a-z]+)\s+and\s+(?:colleagues|coworkers|collaborators)\s*\(([^)]+)\)`. -/
def colleaguesRe : Pat :=
  seqs [grp 1 capWord, wsPlus, lit ("and"), wsPlus,
        alts [lit ("colleagues"), lit ("coworkers"), lit ("collaborators")],
        wsStar, chC ('('), grp 2 (plus (cls (fun c => c ≠ ')'))), chC (')')]

/-- Recognizer 6 (set building only):
`([A-Z][a-z]+)\s+et\s+al\.?\s*\(([^)]+)\)`. -/
def etalComplexRe : Pat :=
  seqs [grp 1 capWord, wsPlus, lit ("et"), wsPlus, lit ("al"),
        opt (chC ('.')), wsStar, chC ('('),
        grp 2 (plus (cls (fun c => c ≠ ')'))), chC (')')]

/-- Recognizer 7 (set building): the lowercase fallback
`([a-z][a-z]+(?:-[a-zA-Z]+)?)\s*[\(,]\s*(\d{4}[a-z]?)`. -/
def lowWord : Pat :=
  seqs [cls isLo, plus (cls isLo),
        opt (seqs [chC ('-'), plus (cls (fun c => isLo c || isUp c))])]

def lowercaseRe : Pat :=
  seqs [grp 1 lowWord, wsStar, cls (fun c => c = '(' || c = ','),
        wsStar, grp 2 yearPat]

/-- The highlighting pass's lowercase pattern
`([a-z][a-z]+(?:-[a-zA-Z]+)?)\s*\((\d{4}[a-z]?(?:,\s*\d{4}[a-z]?)*)\)`. -/
def lowercaseHighRe : Pat :=
  seqs [grp 1 lowWord, wsStar, chC ('('), grp 2 yearsList, chC (')')]

/-- The highlighting pass's parenthetical pattern
`\(([^)]*\d{4}[a-z]?[^)]*)\)`. -/
def parenHighRe : Pat :=
  seqs [chC ('('),
        grp 1 (seqs [star (cls (fun c => c ≠ ')')), yearPat,
                     star (cls (fun c => c ≠ ')'))]),
        chC (')')]

/-- The split pattern `,?\s*\d{4}` used to cut a segment before its years. -/
def yearSplitRe : Pat := seqs [opt (chC (',')), wsStar, d4]

/-- `\((\d{4}[a-z]?)\)` — year search of the reference extractor. -/
def refYearCapRe : Pat := seqs [chC ('('), grp 1 yearPat, chC (')')]

/-- `\(\d{4}[a-z]?\)` — the span-end search of `highlight_references`. -/
def refYearRe : Pat := seqs [chC ('('), yearPat, chC (')')]

end RefCheck

namespace RefCheck

/-! ## Fuzzy matching (`build_fuzzy_lookup`, `fuzzy_match_citation`,
`fuzzy_match_reference`, `determine_highlight_color`) -/

/-- An author/year key. -/
abbrev Key := String × String

/-- The fuzzy lookup: a mapping from base keys to the concrete keys sharing
that base year, in insertion order (a Python `dict` of lists). -/
abbrev Lookup := List (Key × List Key)

def lookupAdd (l : Lookup) (b : Key) (k : Key) : Lookup :=
  if l.any (fun e => e.1 = b) then
    l.map (fun e => if e.1 = b then (e.1, e.2 ++ [k]) else e)
  else l ++ [(b, [k])]

def fuzzyStep (l : Lookup) (k : Key) : Lookup :=
  lookupAdd l (k.1, strip_year_suffix k.2) k

/-- `build_fuzzy_lookup`: index every key under its suffix-stripped base. -/
def build_fuzzy_lookup (items : List Key) : Lookup :=
  items.foldl fuzzyStep []

def lookupFind (l : Lookup) (b : Key) : Option (List Key) :=
  (l.find? (fun e => e.1 = b)).map (fun e => e.2)

/-- The match classification returned by the fuzzy matchers. -/
inductive MatchResult where
  | exact (k : Key)
  | fuzzy (k : Key)
  | nomatch
deriving DecidableEq

/-- `fuzzy_match_citation`: exact membership, else suffix-stripped
membership, else a fuzzy-index candidate with a different year. -/
def fuzzy_match_citation (surname year : String) (refSet : List Key)
    (refFuzzyLookup : Lookup) : MatchResult :=
  if (surname, year) ∈ refSet then .exact (surname, year)
  else
    let baseYear := strip_year_suffix year
    if baseYear ≠ year ∧ (surname, baseYear) ∈ refSet then
      .fuzzy (surname, baseYear)
    else
      match lookupFind refFuzzyLookup (surname, baseYear) with
      | some candidates =>
        match candidates.find? (fun k => k.2 ≠ year) with
        | some k => .fuzzy k
        | none => .nomatch
      | none => .nomatch

/-- `fuzzy_match_reference`: the mirror operation against the
citation-side set and index. -/
def fuzzy_match_reference (surname year : String) (citationSet : List Key)
    (citationFuzzyLookup : Lookup) : MatchResult :=
  if (surname, year) ∈ citationSet then .exact (surname, year)
  else
    let baseYear := strip_year_suffix year
    if baseYear ≠ year ∧ (surname, baseYear) ∈ citationSet then
      .fuzzy (surname, baseYear)
    else
      match lookupFind citationFuzzyLookup (surname, baseYear) with
      | some candidates =>
        match candidates.find? (fun k => k.2 ≠ year) with
        | some k => .fuzzy k
        | none => .nomatch
      | none => .nomatch

inductive Color where
  | green
  | yellow
  | red
  | cyan
deriving DecidableEq

/-- `determine_highlight_color`: green for exact, cyan for fuzzy,
yellow otherwise. -/
def determine_highlight_color (surname year : String) (refSet : List Key)
    (refFuzzyLookup : Lookup) : Color :=
  match fuzzy_match_citation surname year refSet refFuzzyLookup with
  | .exact _ => .green
  | .fuzzy _ => .cyan
  | .nomatch => .yellow

/-- The worst-case aggregation used for every multi-key block:
yellow if any yellow, else cyan if any cyan, else green. -/
def blockColor (colors : List Color) : Color :=
  if colors.contains .yellow then .yellow
  else if colors.contains .cyan then .cyan
  else .green

end RefCheck

namespace RefCheck

/-! ## Citation extraction (`extract_citations_from_text`) -/

/-- Years found in one `;`-segment: `re.findall(r'(\d{4}[a-z]?)', part)`. -/
def segYears (part : List Char) : List String :=
  (findall1 yearCap part).map String.mk

/-- The author portion of a segment:
`clean_author(re.split(r',?\s*\d{4}', part)[0].strip())`. -/
def segAuthor (part : List Char) : String :=
  clean_author (String.mk (stripL (splitHead yearSplitRe part)))

/-- `block.split(';')` with each part stripped. -/
def splitParts (block : List Char) : List (List Char) :=
  (splitC (';') block).map stripL

/-- One segment of a parenthetical block, threading the author-inheritance
state (`last_author`). -/
def inheritStep (acc : List Key × Option String) (part : List Char) :
    List Key × Option String :=
  let years := segYears part
  if years.isEmpty then acc
  else
    let ap := segAuthor part
    if 2 < ap.length then
      let surname := first_surname ap
      if is_noise surname then acc
      else (acc.1 ++ years.map (fun y => (surname, y)), some surname)
    else
      match acc.2 with
      | some la => (acc.1 ++ years.map (fun y => (la, y)), acc.2)
      | none => acc

/-- Keys of a parenthetical block with bare-year author inheritance. -/
def blockKeysInherit (parts : List (List Char)) : List Key :=
  (parts.foldl inheritStep ([], none)).1

/-- One segment without inheritance (the multi-bracket block). -/
def plainStep (acc : List Key) (part : List Char) : List Key :=
  let years := segYears part
  if years.isEmpty then acc
  else
    let ap := segAuthor part
    if 2 < ap.length then
      let surname := first_surname ap
      if is_noise surname then acc
      else acc ++ years.map (fun y => (surname, y))
    else acc

def blockKeysPlain (parts : List (List Char)) : List Key :=
  parts.foldl plainStep []

/-- One segment with a fallback subject author (possessive, "and
colleagues", "et al." recognizers). -/
def fallbackStep (fb : String) (acc : List Key) (part : List Char) :
    List Key :=
  let years := segYears part
  if years.isEmpty then acc
  else
    let ap := segAuthor part
    if 2 < ap.length then
      let surname := first_surname ap
      if is_noise surname then acc
      else acc ++ years.map (fun y => (surname, y))
    else
      if is_noise fb then acc else acc ++ years.map (fun y => (fb, y))

def blockKeysFallback (fb : String) (parts : List (List Char)) : List Key :=
  parts.foldl (fallbackStep fb) []

/-- `extract_citations_from_text`: run the seven set-building recognizers
over the length-changing normalization and capitalize every surname. -/
def extract_citations_from_text (plainText : String) : List Key :=
  let text := normalize_text plainText.data
  let p1 := (finditer parenRe text).flatMap (fun m =>
    blockKeysInherit (splitParts (getCap 1 m.caps)))
  let p2 := (finditer narrativeRe text).flatMap (fun m =>
    let surname := first_surname (String.mk (stripL (getCap 2 m.caps)))
    if is_noise surname then []
    else (segYears (getCap 3 m.caps)).map (fun y => (surname, y)))
  let p3 := (finditer possessiveRe text).flatMap (fun m =>
    blockKeysFallback (String.mk (getCap 2 m.caps))
      (splitParts (getCap 3 m.caps)))
  let p4a := (finditer bracketARe text).flatMap (fun m =>
    let surname := first_surname (clean_author (String.mk (stripL (getCap 1 m.caps))))
    if is_noise surname then []
    else [(surname, String.mk (getCap 2 m.caps))])
  let p4b := (finditer bracketBRe text).flatMap (fun m =>
    blockKeysPlain (splitParts (getCap 1 m.caps)))
  let p5 := (finditer colleaguesRe text).flatMap (fun m =>
    blockKeysFallback (String.mk (getCap 1 m.caps))
      (splitParts (getCap 2 m.caps)))
  let p6 := (finditer etalComplexRe text).flatMap (fun m =>
    blockKeysFallback (String.mk (getCap 1 m.caps))
      (splitParts (getCap 2 m.caps)))
  let p7 := (finditer lowercaseRe text).flatMap (fun m =>
    let surname := normalize_surname (String.mk (getCap 1 m.caps))
    if is_noise surname then []
    else [(surname, String.mk (getCap 2 m.caps))])
  (p1 ++ p2 ++ p3 ++ p4a ++ p4b ++ p5 ++ p6 ++ p7).map
    (fun k => (normalize_surname k.1, k.2))

/-! ## Reference extraction (`extract_references_from_doc`) -/

def headingTexts : List String :=
  ["References", "REFERENCES", "Reference List", "Bibliography"]

/-- Parse one reference paragraph into a raw `(surname, year)` entry:
first `(YYYY[letter])` in the normalized text, surname taken from the text
before the first `(`. -/
def parseRefParagraph (paraText : String) : Option Key :=
  let text := normalize_text (stripL paraText.data)
  if text.isEmpty then none
  else if headingTexts.contains (String.mk text) then none
  else
    match reSearch refYearCapRe text with
    | none => none
    | some m =>
      let year := String.mk (getCap 1 m.caps)
      let before := stripL (rstripC (',')
        (stripL (text.takeWhile (fun c => c ≠ '('))))
      let parts := splitWs (rstripC ('.')
        (stripL ((splitC (',') before).headD [])))
      let surname := String.mk (parts.headD [])
      if 1 < surname.length then some (surname, year) else none

/-- The raw reference entries, in document order. -/
def extract_references_raw (paras : List String) : List Key :=
  paras.filterMap parseRefParagraph

/-- Occurrences of a base key among the raw entries (the `Counter`). -/
def countBase (raw : List Key) (b : Key) : Nat :=
  raw.countP (fun k => k.1 = b.1 ∧ strip_year_suffix k.2 = b.2)

/-- The suffix tracker, a Python `dict` from base keys to the next
letter's code point: lookup with the default `ord('a')`. -/
def trVal : List (Key × Nat) → Key → Nat
  | [], _ => 97
  | e :: tr, b => if e.1 = b then e.2 else trVal tr b

/-- Tracker update: overwrite the key's entry, inserting it if absent. -/
def trSet : List (Key × Nat) → Key → Nat → List (Key × Nat)
  | [], b, n => [(b, n)]
  | e :: tr, b, n => if e.1 = b then (b, n) :: tr else e :: trSet tr b n

/-- The auto-assignment loop: an unsuffixed member of a duplicated base
group receives the tracker's current letter (starting at `'a'`), and both
the suffixed and the original key are emitted. -/
def autoAssignGo (full : List Key) : List Key → List (Key × Nat) → List Key
  | [], _ => []
  | k :: rest, tr =>
    let b : Key := (k.1, strip_year_suffix k.2)
    if 1 < countBase full b ∧ ¬ endsLowerDollar k.2 then
      let n := trVal tr b
      (k.1, k.2.push (Char.ofNat n)) :: k ::
        autoAssignGo full rest (trSet tr b (n + 1))
    else k :: autoAssignGo full rest tr

def auto_assign (raw : List Key) : List Key := autoAssignGo raw raw []

/-- `extract_references_from_doc`, over the paragraph texts following the
bibliography heading (the output set is the list up to duplication). -/
def extract_references_from_doc (paras : List String) : List Key :=
  auto_assign (extract_references_raw paras)

/-- Members of `done` that share base `b` and carry no letter suffix. -/
def unsuffixedSoFar (done : List Key) (b : Key) : Nat :=
  done.countP (fun k =>
    k.1 = b.1 ∧ strip_year_suffix k.2 = b.2 ∧ ¬ endsLowerDollar k.2)

/-- Tracker-free description of the auto-assignment: the letter given to
an unsuffixed member of a duplicated group is `'a'` advanced by the number
of unsuffixed members of that group already processed. -/
def specAssignGo (full : List Key) : List Key → List Key → List Key
  | _, [] => []
  | done, k :: rest =>
    let b : Key := (k.1, strip_year_suffix k.2)
    (if 1 < countBase full b ∧ ¬ endsLowerDollar k.2 then
      [(k.1, k.2.push (Char.ofNat (97 + unsuffixedSoFar done b))), k]
     else [k]) ++ specAssignGo full (done ++ [k]) rest

def spec_assign (raw : List Key) : List Key := specAssignGo raw [] raw

end RefCheck

namespace RefCheck

/-! ## The span locator (`highlight_body_citations`, per paragraph) -/

structure Block where
  start : Nat
  stop : Nat
  keys : List Key
  color : Color
deriving DecidableEq

/-- The source's overlap-skip test:
`any(hs <= span_start < he or hs < span_end <= he for hs, he in highlighted_spans)`. -/
def overlapsAny (spans : List (Nat × Nat)) (s e : Nat) : Bool :=
  spans.any (fun hp => (hp.1 ≤ s ∧ s < hp.2) ∨ (hp.1 < e ∧ e ≤ hp.2))

def blockColorOf (ks : List Key) (refs : List Key) (lk : Lookup) : Color :=
  blockColor (ks.map (fun k => determine_highlight_color k.1 k.2 refs lk))

/-- Pass 4a of the span locator: single-bracket citations are accepted
without an overlap test (they come first). -/
def pass4a (t : List Char) (refs : List Key) (lk : Lookup) : List Block :=
  (finditer bracketARe t).filterMap (fun m =>
    let surname := first_surname (clean_author (String.mk (stripL (getCap 1 m.caps))))
    if is_noise surname then none
    else
      let year := String.mk (getCap 2 m.caps)
      some ⟨m.start, m.stop, [(surname, year)],
            determine_highlight_color surname year refs lk⟩)

/-- A later pass: each candidate in match order is skipped when the
overlap test fires against the spans accepted so far, and accepted when it
yields keys. -/
def passOverlap (mk : MatchRes → List Key) (refs : List Key) (lk : Lookup) :
    List MatchRes → List Block → List Block
  | [], acc => acc
  | m :: rest, acc =>
    if overlapsAny (acc.map (fun b => (b.start, b.stop))) m.start m.stop then
      passOverlap mk refs lk rest acc
    else
      let ks := mk m
      if ks.isEmpty then passOverlap mk refs lk rest acc
      else passOverlap mk refs lk rest
        (acc ++ [⟨m.start, m.stop, ks, blockColorOf ks refs lk⟩])

def mk4b (m : MatchRes) : List Key :=
  blockKeysPlain (splitParts (getCap 1 m.caps))

def mkParen (m : MatchRes) : List Key :=
  blockKeysInherit (splitParts (getCap 1 m.caps))

def mkNarr (m : MatchRes) : List Key :=
  let surname := first_surname (String.mk (stripL (getCap 2 m.caps)))
  if is_noise surname then []
  else (segYears (getCap 3 m.caps)).map (fun y => (surname, y))

def mkPoss (m : MatchRes) : List Key :=
  if (reSearch d4 (getCap 3 m.caps)).isNone then []
  else blockKeysFallback (String.mk (getCap 2 m.caps))
    (splitParts (getCap 3 m.caps))

def mkColl (m : MatchRes) : List Key :=
  blockKeysFallback (String.mk (getCap 1 m.caps))
    (splitParts (getCap 2 m.caps))

def mkLowH (m : MatchRes) : List Key :=
  let surname := normalize_surname (String.mk (getCap 1 m.caps))
  if is_noise surname then []
  else (segYears (getCap 2 m.caps)).map (fun y => (surname, y))

/-- The span locator over one paragraph: the seven passes in the source's
priority order, producing the accepted blocks in acceptance order. -/
def highlight_body_citations_para (paraText : String) (refs : List Key)
    (lk : Lookup) : List Block :=
  let t := normalize_for_highlight paraText.data
  if (stripL t).isEmpty then []
  else
    let acc := pass4a t refs lk
    let acc := passOverlap mk4b refs lk (finditer bracketBRe t) acc
    let acc := passOverlap mkParen refs lk (finditer parenHighRe t) acc
    let acc := passOverlap mkNarr refs lk (finditer narrativeRe t) acc
    let acc := passOverlap mkPoss refs lk (finditer possessiveRe t) acc
    let acc := passOverlap mkColl refs lk (finditer colleaguesRe t) acc
    passOverlap mkLowH refs lk (finditer lowercaseHighRe t) acc

/-- All keys the span locator recognizes and classifies in a paragraph. -/
def highlightKeysPara (paraText : String) (refs : List Key) (lk : Lookup) :
    List Key :=
  (highlight_body_citations_para paraText refs lk).flatMap (fun b => b.keys)

/-! ## Reference highlighting (`highlight_references`, per paragraph) -/

/-- The span `highlight_references` marks in one reference paragraph:
`none` when the paragraph is skipped, otherwise `(0, e)` where `e` is the
end of the first `(YYYY[letter])` occurrence in the raw paragraph text, or
the paragraph's length when the raw text has no such occurrence. -/
def highlight_references_span (paraText : String) : Option (Nat × Nat) :=
  let text := stripL paraText.data
  if text.isEmpty then none
  else
    let textClean := normalize_text text
    match reSearch refYearCapRe textClean with
    | none => none
    | some _ =>
      let before := stripL (rstripC (',')
        (stripL (textClean.takeWhile (fun c => c ≠ '('))))
      let parts := splitWs (rstripC ('.')
        (stripL ((splitC (',') before).headD [])))
      let surname := String.mk (parts.headD [])
      if surname.isEmpty then none
      else
        match reSearch refYearRe paraText.data with
        | some m2 => some (0, m2.stop)
        | none => some (0, paraText.length)

/-- End of the first `(YYYY[letter])` occurrence in a text, if any. -/
def firstYearParenStop (paraText : String) : Option Nat :=
  (reSearch refYearRe paraText.data).map (fun m => m.stop)

end RefCheck

namespace RefCheck

/-! ## The document run model (`split_run`, `highlight_span_in_paragraph`) -/

/-- A formatted run: its text and its highlight attribute (all other
formatting is copied verbatim by the source's deep copy and is irrelevant
here). -/
structure Run where
  text : List Char
  hl : Option Color
deriving DecidableEq

/-- `split_run`: split a run at a character offset; both halves keep the
run's formatting. -/
def split_run (r : Run) (splitAt : Nat) : Run × Run :=
  ({ r with text := r.text.take splitAt },
   { r with text := r.text.drop splitAt })

/-- Split the run that strictly contains boundary `b` (the source's first
loop, which breaks after one split). -/
def splitRunsAtGo (b : Nat) : Nat → List Run → List Run
  | _, [] => []
  | pos, r :: rest =>
    if pos < b ∧ b < pos + r.text.length then
      (split_run r (b - pos)).1 :: (split_run r (b - pos)).2 :: rest
    else r :: splitRunsAtGo b (pos + r.text.length) rest

/-- The marking pass: highlight every nonempty run lying inside
`[cs, ce]`. -/
def markGo (cs ce : Nat) (c : Color) : Nat → List Run → List Run
  | _, [] => []
  | pos, r :: rest =>
    (if cs ≤ pos ∧ pos + r.text.length ≤ ce ∧ 0 < r.text.length then
      { r with hl := some c }
     else r) :: markGo cs ce c (pos + r.text.length) rest

/-- `highlight_span_in_paragraph`: split at the two boundaries (start
first), then mark the runs inside the span. -/
def highlight_span_in_paragraph (runs : List Run) (cs ce : Nat)
    (c : Color) : List Run :=
  markGo cs ce c 0 (splitRunsAtGo ce 0 (splitRunsAtGo cs 0 runs))

/-- The paragraph's plain text: the concatenation of its runs' texts. -/
def para_text (runs : List Run) : List Char :=
  runs.flatMap (fun r => r.text)

/-! ## Learned cross-matches (`apply_learned_cross_matches` and the
reclassification loop of `main`) -/

structure CrossMatch where
  author : String
  citeYear : String
  refYear : String
  reason : String
deriving DecidableEq

/-- `(\w[\w-]*)\s*\((\d{4}[a-z]?)\)` — the anchored parse of a
`"Surname (Year)"` report string. -/
def crossKeyRe : Pat :=
  seqs [grp 1 (pseq (cls isWd) (star (cls (fun c => isWd c || c = '-')))),
        wsStar, chC ('('), grp 2 yearPat, chC (')')]

def parseCrossKey (s : String) : Option (String × String) :=
  match matchAt crossKeyRe s.data 0 with
  | some (_, caps) =>
    some (lowerStr (String.mk (getCap 1 caps)), String.mk (getCap 2 caps))
  | none => none

def strLookupAdd (d : List ((String × String) × String))
    (k : String × String) (v : String) : List ((String × String) × String) :=
  if d.any (fun e => e.1 = k) then
    d.map (fun e => if e.1 = k then (k, v) else e)
  else d ++ [(k, v)]

def buildStrStep (d : List ((String × String) × String)) (c : String) :
    List ((String × String) × String) :=
  match parseCrossKey c with
  | some k => strLookupAdd d k c
  | none => d

/-- The `(lowercased author, year) -> original string` lookup built from a
report list. -/
def buildStrLookup (l : List String) : List ((String × String) × String) :=
  l.foldl buildStrStep []

def strLookupFind (d : List ((String × String) × String))
    (k : String × String) : Option String :=
  ((d.find? (fun e => e.1 = k)).map (fun e => e.2))

/-- `apply_learned_cross_matches`: the learned records whose citation and
reference sides both appear in the current run's unmatched/uncited lists,
with the matching report strings. -/
def apply_learned_cross_matches (crossMatches : List CrossMatch)
    (unmatchedCitations uncitedRefs : List String) :
    List (String × String × String) :=
  let citeLookup := buildStrLookup unmatchedCitations
  let refLookup := buildStrLookup uncitedRefs
  crossMatches.filterMap (fun cm =>
    match strLookupFind citeLookup (lowerStr cm.author, cm.citeYear),
          strLookupFind refLookup (lowerStr cm.author, cm.refYear) with
    | some c, some r => some (c, r, cm.reason)
    | _, _ => none)

/-- The run's report state at the point where `main` applies the learned
cross-matches, together with the (already highlighted) document. -/
structure Report where
  unmatchedCitations : List String
  fuzzyCitations : List String
  uncitedRefs : List String
  fuzzyRefs : List String
  bodyUnmatched : Int
  bodyFuzzy : Int
  refUncited : Int
  refFuzzy : Int
  doc : List (List Run)
deriving DecidableEq

/-- One iteration of `main`'s reclassification loop over an auto-match
`(citation string, reference string, reason)`. -/
def applyOneCrossMatch (t : String × String × String) (st : Report) :
    Report :=
  let st1 :=
    if t.1 ∈ st.unmatchedCitations then
      { st with unmatchedCitations := st.unmatchedCitations.erase t.1,
                fuzzyCitations := st.fuzzyCitations ++ [t.1],
                bodyUnmatched := st.bodyUnmatched - 1,
                bodyFuzzy := st.bodyFuzzy + 1 }
    else st
  if t.2.1 ∈ st1.uncitedRefs then
    { st1 with uncitedRefs := st1.uncitedRefs.erase t.2.1,
               fuzzyRefs := st1.fuzzyRefs ++ [t.2.1],
               refUncited := st1.refUncited - 1,
               refFuzzy := st1.refFuzzy + 1 }
  else st1

/-- `main`'s reclassification loop. -/
def applyCrossMatchLoop (ams : List (String × String × String))
    (st : Report) : Report :=
  ams.foldl (fun st t => applyOneCrossMatch t st) st

end RefCheck

namespace RefCheck

/-! ## Claim C8: `strip_year_suffix` -/

/-- C8 (counterexample): `strip_year_suffix` is not idempotent on every
string: on `"1912aa"` the first application yields `"1912a"` and the second
removes a second letter. -/
theorem c8_strip_counterexample :
    ¬ (strip_year_suffix (strip_year_suffix ("1912aa")) =
       strip_year_suffix ("1912aa")) := by decide

/-- C8 (amended): `strip_year_suffix` removes a single trailing lowercase
letter when one is present; it leaves strings with no trailing lowercase
letter (under the regex's `$` anchor) unchanged; and it is idempotent
exactly on the inputs whose stripped form has no trailing lowercase letter
— in particular on all year strings of the shape `\d{4}[a-z]?` — but not
on arbitrary strings. -/
theorem c8_strip_year_suffix_props :
    (∀ (z : List Char) (c : Char), isLo c = true →
       strip_year_suffix (String.mk (z ++ [c])) = String.mk z) ∧
    (∀ y : String, endsLowerDollar y = false → strip_year_suffix y = y) ∧
    (∀ y : String, endsLowerDollar (strip_year_suffix y) = false →
       strip_year_suffix (strip_year_suffix y) = strip_year_suffix y) := by
  have hB : ∀ y : String, endsLowerDollar y = false →
      strip_year_suffix y = y := by
    intro y hy
    rcases hrev : y.data.reverse with _ | ⟨c, rest⟩
    · simp [strip_year_suffix, hrev]
    · by_cases hc : isLo c = true
      · rw [endsLowerDollar, hrev] at hy
        simp [hc] at hy
      · by_cases hnl : c = '\n'
        · subst hnl
          rcases rest with _ | ⟨d, rest2⟩
          · simp [strip_year_suffix, hrev, hc]
          · have hd : isLo d = false := by
              rw [endsLowerDollar, hrev] at hy
              simpa [hc] using hy
            simp [strip_year_suffix, hrev, hc, hd]
        · simp [strip_year_suffix, hrev, hc, hnl]
  refine ⟨?_, hB, ?_⟩
  · intro z c hc
    unfold strip_year_suffix
    simp [List.reverse_append, hc]
  · intro y hy
    exact hB _ hy

/-- C8 (witness): the amended properties at `"1912a"`. -/
theorem c8_strip_year_suffix_props_witness :
    strip_year_suffix (String.mk (("1912").data ++ [ 'a' ])) =
      String.mk (("1912").data) ∧
    strip_year_suffix ("1912") = ("1912") ∧
    strip_year_suffix (strip_year_suffix ("1912a")) =
      strip_year_suffix ("1912a") :=
  ⟨c8_strip_year_suffix_props.1 (("1912").data) 'a' (by decide),
   c8_strip_year_suffix_props.2.1 ("1912") (by decide),
   c8_strip_year_suffix_props.2.2 ("1912a") (by decide)⟩

/-! ## Claim C9: marking never corrupts paragraph text -/

theorem para_text_cons (r : Run) (rs : List Run) :
    para_text (r :: rs) = r.text ++ para_text rs := by
  simp [para_text]

theorem para_text_splitRunsAtGo (b : Nat) :
    ∀ (pos : Nat) (runs : List Run),
      para_text (splitRunsAtGo b pos runs) = para_text runs := by
  intro pos runs
  induction runs generalizing pos with
  | nil => rfl
  | cons r rest ih =>
    unfold splitRunsAtGo
    by_cases h : pos < b ∧ b < pos + r.text.length
    · rw [if_pos h]
      simp only [split_run, para_text_cons]
      rw [← List.append_assoc, List.take_append_drop]
    · rw [if_neg h, para_text_cons, para_text_cons, ih]

theorem para_text_markGo (cs ce : Nat) (c : Color) :
    ∀ (pos : Nat) (runs : List Run),
      para_text (markGo cs ce c pos runs) = para_text runs := by
  intro pos runs
  induction runs generalizing pos with
  | nil => rfl
  | cons r rest ih =>
    unfold markGo
    rw [para_text_cons, para_text_cons, ih]
    by_cases h : cs ≤ pos ∧ pos + r.text.length ≤ ce ∧ 0 < r.text.length
    · simp [h]
    · simp [h]

/-- C9 (confirmed): `split_run` yields two runs whose texts concatenate to
the original's, and `highlight_span_in_paragraph` leaves the concatenation
of the paragraph's run texts unchanged for every span — only highlight
attributes change. -/
theorem c9_marking_preserves_text :
    (∀ (r : Run) (n : Nat),
       (split_run r n).1.text ++ (split_run r n).2.text = r.text) ∧
    (∀ (runs : List Run) (cs ce : Nat) (c : Color),
       para_text (highlight_span_in_paragraph runs cs ce c) =
         para_text runs) := by
  constructor
  · intro r n
    simp [split_run]
  · intro runs cs ce c
    unfold highlight_span_in_paragraph
    rw [para_text_markGo, para_text_splitRunsAtGo, para_text_splitRunsAtGo]

end RefCheck

namespace RefCheck

/-! ## Claim C10: learned cross-matches update only the report -/

theorem strLookupAdd_mem {d : List ((String × String) × String)}
    {k : String × String} {v : String} {e : (String × String) × String}
    (h : e ∈ strLookupAdd d k v) : e.2 = v ∨ e ∈ d := by
  unfold strLookupAdd at h
  by_cases hc : d.any (fun e => e.1 = k)
  · rw [if_pos hc] at h
    rcases List.mem_map.mp h with ⟨a, ha, rfl⟩
    by_cases hak : a.1 = k
    · left; simp [hak]
    · right; simpa [hak] using ha
  · rw [if_neg hc] at h
    rcases List.mem_append.mp h with h | h
    · right; exact h
    · left; simp at h; simp [h]

theorem buildStrLookup_values :
    ∀ (l : List String) (d : List ((String × String) × String))
      (e : (String × String) × String),
      e ∈ l.foldl buildStrStep d → e.2 ∈ l ∨ e ∈ d := by
  intro l
  induction l with
  | nil => intro d e h; right; exact h
  | cons c l ih =>
    intro d e h
    rw [List.foldl_cons] at h
    rcases ih (buildStrStep d c) e h with h2 | h2
    · left; exact List.mem_cons_of_mem _ h2
    · unfold buildStrStep at h2
      rcases hp : parseCrossKey c with _ | k
      · rw [hp] at h2; right; exact h2
      · rw [hp] at h2
        rcases strLookupAdd_mem h2 with h3 | h3
        · left; rw [h3]; exact List.mem_cons_self _ _
        · right; exact h3

theorem strLookupFind_mem {l : List String} {k : String × String}
    {v : String} (h : strLookupFind (buildStrLookup l) k = some v) :
    v ∈ l := by
  unfold strLookupFind at h
  rcases hf : (buildStrLookup l).find? (fun e => e.1 = k) with _ | e
  · rw [hf] at h; simp at h
  · rw [hf] at h
    simp only [Option.map, Option.some.injEq] at h
    have he : e ∈ buildStrLookup l := List.mem_of_find?_eq_some hf
    rcases buildStrLookup_values l [] e he with h2 | h2
    · rwa [h] at h2
    · simp at h2

/-- C10 (confirmed): a learned cross-match fires only when both report
strings appear in the current unmatched/uncited lists; the
reclassification loop never touches the document (so the highlight colors
already applied stay as they are in the saved document); and a fired match
updates exactly the report: the citation string moves from the unmatched
list to the fuzzy list, the reference string from the uncited list to its
fuzzy list, and the four counters are adjusted by one. -/
theorem c10_cross_match_frame :
    (∀ (cms : List CrossMatch) (u v : List String)
       (t : String × String × String),
       t ∈ apply_learned_cross_matches cms u v → t.1 ∈ u ∧ t.2.1 ∈ v) ∧
    (∀ (ams : List (String × String × String)) (st : Report),
       (applyCrossMatchLoop ams st).doc = st.doc) ∧
    (∀ (t : String × String × String) (st : Report),
       t.1 ∈ st.unmatchedCitations → t.2.1 ∈ st.uncitedRefs →
       applyOneCrossMatch t st =
         { unmatchedCitations := st.unmatchedCitations.erase t.1,
           fuzzyCitations := st.fuzzyCitations ++ [t.1],
           uncitedRefs := st.uncitedRefs.erase t.2.1,
           fuzzyRefs := st.fuzzyRefs ++ [t.2.1],
           bodyUnmatched := st.bodyUnmatched - 1,
           bodyFuzzy := st.bodyFuzzy + 1,
           refUncited := st.refUncited - 1,
           refFuzzy := st.refFuzzy + 1,
           doc := st.doc }) := by
  refine ⟨?_, ?_, ?_⟩
  · intro cms u v t ht
    unfold apply_learned_cross_matches at ht
    rcases List.mem_filterMap.mp ht with ⟨cm, _, hcm⟩
    rcases hc : strLookupFind (buildStrLookup u)
        (lowerStr cm.author, cm.citeYear) with _ | c
    · rw [hc] at hcm; simp at hcm
    · rcases hr : strLookupFind (buildStrLookup v)
          (lowerStr cm.author, cm.refYear) with _ | r
      · rw [hc, hr] at hcm; simp at hcm
      · rw [hc, hr] at hcm
        simp only [Option.some_inj] at hcm
        subst hcm
        exact ⟨strLookupFind_mem hc, strLookupFind_mem hr⟩
  · have hdoc : ∀ (t : String × String × String) (st : Report),
        (applyOneCrossMatch t st).doc = st.doc := by
      intro t st
      simp only [applyOneCrossMatch]
      split <;> split <;> rfl
    intro ams st
    induction ams generalizing st with
    | nil => rfl
    | cons t ams ih =>
      unfold applyCrossMatchLoop at ih ⊢
      rw [List.foldl_cons, ih, hdoc]
  · intro t st h1 h2
    unfold applyOneCrossMatch
    rw [if_pos h1, if_pos (by simpa using h2)]

/-- C10 (witness): the properties at a concrete fired cross-match. -/
theorem c10_cross_match_frame_witness :
    (("Smith (2009)", "Smith (2009a)", "confirmed") ∈
       apply_learned_cross_matches
         [⟨"Smith", "2009", "2009a", "confirmed"⟩]
         ["Smith (2009)"] ["Smith (2009a)"] →
       ("Smith (2009)" : String) ∈ ["Smith (2009)"] ∧
       ("Smith (2009a)" : String) ∈ ["Smith (2009a)"]) ∧
    (applyCrossMatchLoop [("Smith (2009)", "Smith (2009a)", "confirmed")]
       ⟨["Smith (2009)"], [], ["Smith (2009a)"], [], 1, 0, 1, 0, []⟩).doc =
      (⟨["Smith (2009)"], [], ["Smith (2009a)"], [], 1, 0, 1, 0, []⟩ :
        Report).doc ∧
    applyOneCrossMatch ("Smith (2009)", "Smith (2009a)", "confirmed")
       ⟨["Smith (2009)"], [], ["Smith (2009a)"], [], 1, 0, 1, 0, []⟩ =
      { unmatchedCitations := ["Smith (2009)"].erase ("Smith (2009)"),
        fuzzyCitations := [] ++ ["Smith (2009)"],
        uncitedRefs := ["Smith (2009a)"].erase ("Smith (2009a)"),
        fuzzyRefs := [] ++ ["Smith (2009a)"],
        bodyUnmatched := 1 - 1, bodyFuzzy := 0 + 1,
        refUncited := 1 - 1, refFuzzy := 0 + 1, doc := [] } :=
  ⟨c10_cross_match_frame.1 _ _ _ _,
   c10_cross_match_frame.2.1 _ _,
   c10_cross_match_frame.2.2 _ _ (by decide) (by decide)⟩

end RefCheck

namespace RefCheck

/-! ## Claim C2: matcher classification order -/

theorem lookupAdd_mem_val {l : Lookup} {b k : Key} {e : Key × List Key}
    {x : Key} (he : e ∈ lookupAdd l b k) (hx : x ∈ e.2) :
    x = k ∨ ∃ e2 ∈ l, x ∈ e2.2 := by
  unfold lookupAdd at he
  by_cases hc : l.any (fun e => e.1 = b)
  · rw [if_pos hc] at he
    rcases List.mem_map.mp he with ⟨a, ha, rfl⟩
    by_cases hab : a.1 = b
    · simp only [hab, if_true] at hx
      rcases List.mem_append.mp hx with h | h
      · right; exact ⟨a, ha, h⟩
      · left; simpa using h
    · simp only [hab, if_false] at hx
      right; exact ⟨a, ha, hx⟩
  · rw [if_neg hc] at he
    rcases List.mem_append.mp he with h | h
    · right; exact ⟨e, h, hx⟩
    · left
      simp at h
      rw [h] at hx
      simpa using hx

theorem buildFuzzy_values :
    ∀ (items : List Key) (d : Lookup) (e : Key × List Key),
      e ∈ items.foldl fuzzyStep d → ∀ x ∈ e.2,
        x ∈ items ∨ ∃ e2 ∈ d, x ∈ e2.2 := by
  intro items
  induction items with
  | nil => intro d e he x hx; right; exact ⟨e, he, hx⟩
  | cons k items ih =>
    intro d e he x hx
    rw [List.foldl_cons] at he
    rcases ih (fuzzyStep d k) e he x hx with h | ⟨e2, he2, hx2⟩
    · left; exact List.mem_cons_of_mem _ h
    · unfold fuzzyStep at he2
      rcases lookupAdd_mem_val he2 hx2 with h | ⟨e3, he3, hx3⟩
      · left; rw [h]; exact List.mem_cons_self _ _
      · right; exact ⟨e3, he3, hx3⟩

theorem lookupFind_build_mem {items : List Key} {bk : Key}
    {cands : List Key}
    (h : lookupFind (build_fuzzy_lookup items) bk = some cands) :
    ∀ x ∈ cands, x ∈ items := by
  intro x hx
  unfold lookupFind at h
  rcases hf : (build_fuzzy_lookup items).find? (fun e => e.1 = bk) with _ | e
  · rw [hf] at h; simp at h
  · rw [hf] at h
    simp only [Option.map, Option.some.injEq] at h
    have he : e ∈ build_fuzzy_lookup items := List.mem_of_find?_eq_some hf
    rcases buildFuzzy_values items [] e he x (by rwa [h]) with h2 | h2
    · exact h2
    · simp at h2

/-- C2 (confirmed): `fuzzy_match_citation` classifies in exactly the
claimed order — (1) exact set membership, (2) else the suffix-stripped key
when stripping changes the year and the stripped key is a member, (3) else
a fuzzy-index candidate carrying a different year (which is a real entry
of the reference set), (4) else no match — and `fuzzy_match_reference` is
the identical operation applied to the citation-side set and index. -/
theorem c2_matcher_order (s y : String) (refs : List Key) :
    ((s, y) ∈ refs →
      fuzzy_match_citation s y refs (build_fuzzy_lookup refs) =
        .exact (s, y)) ∧
    ((s, y) ∉ refs → strip_year_suffix y ≠ y →
      (s, strip_year_suffix y) ∈ refs →
      fuzzy_match_citation s y refs (build_fuzzy_lookup refs) =
        .fuzzy (s, strip_year_suffix y)) ∧
    (∀ cands : List Key, (s, y) ∉ refs →
      ¬ (strip_year_suffix y ≠ y ∧ (s, strip_year_suffix y) ∈ refs) →
      lookupFind (build_fuzzy_lookup refs) (s, strip_year_suffix y) =
        some cands →
      (∃ k ∈ cands, k.2 ≠ y) →
      ∃ k ∈ cands, k.2 ≠ y ∧ k ∈ refs ∧
        fuzzy_match_citation s y refs (build_fuzzy_lookup refs) =
          .fuzzy k) ∧
    ((s, y) ∉ refs →
      ¬ (strip_year_suffix y ≠ y ∧ (s, strip_year_suffix y) ∈ refs) →
      ¬ (∃ cands : List Key,
          lookupFind (build_fuzzy_lookup refs) (s, strip_year_suffix y) =
            some cands ∧ ∃ k ∈ cands, k.2 ≠ y) →
      fuzzy_match_citation s y refs (build_fuzzy_lookup refs) =
        .nomatch) ∧
    (∀ (s2 y2 : String) (otherSet : List Key) (lk : Lookup),
      fuzzy_match_reference s2 y2 otherSet lk =
        fuzzy_match_citation s2 y2 otherSet lk) := by
  refine ⟨?_, ?_, ?_, ?_, ?_⟩
  · intro h1
    simp only [fuzzy_match_citation]
    rw [if_pos h1]
  · intro h1 h2 h3
    simp only [fuzzy_match_citation]
    rw [if_neg h1, if_pos ⟨h2, h3⟩]
  · intro cands h1 h2 hlk hex
    rcases ho : cands.find? (fun k => k.2 ≠ y) with _ | k
    · exfalso
      rcases hex with ⟨k, hk, hky⟩
      have := List.find?_eq_none.mp ho k hk
      simp [hky] at this
    · have hkmem := List.mem_of_find?_eq_some ho
      have hkp := List.find?_some ho
      refine ⟨k, hkmem, by simpa using hkp,
        lookupFind_build_mem hlk k hkmem, ?_⟩
      simp only [fuzzy_match_citation]
      rw [if_neg h1, if_neg h2, hlk]
      simp only [ne_eq, decide_not] at ho
      simp [ho]
  · intro h1 h2 h3
    simp only [fuzzy_match_citation]
    rw [if_neg h1, if_neg h2]
    rcases hlk : lookupFind (build_fuzzy_lookup refs)
        (s, strip_year_suffix y) with _ | cands
    · rfl
    · rcases ho : cands.find? (fun k => k.2 ≠ y) with _ | k
      · simp only [ne_eq, decide_not] at ho
        simp [ho]
      · exfalso
        apply h3
        refine ⟨cands, hlk, k, List.mem_of_find?_eq_some ho, ?_⟩
        simpa using List.find?_some ho
  · intro s2 y2 otherSet lk
    rfl

/-- C2 (witness): the four classification cases and the mirror identity at
concrete inputs. -/
theorem c2_matcher_order_witness :
    fuzzy_match_citation ("Freud") ("1912")
        [(("Freud"), ("1912"))]
        (build_fuzzy_lookup [(("Freud"), ("1912"))]) =
      .exact (("Freud"), ("1912")) ∧
    fuzzy_match_citation ("Freud") ("1912a")
        [(("Freud"), ("1912"))]
        (build_fuzzy_lookup [(("Freud"), ("1912"))]) =
      .fuzzy (("Freud"), ("1912")) ∧
    (∃ k ∈ [(("Freud"), ("1912b"))], k.2 ≠ ("1912") ∧
      k ∈ [(("Freud"), ("1912b"))] ∧
      fuzzy_match_citation ("Freud") ("1912")
          [(("Freud"), ("1912b"))]
          (build_fuzzy_lookup [(("Freud"), ("1912b"))]) = .fuzzy k) ∧
    fuzzy_match_citation ("Freud") ("1912") []
        (build_fuzzy_lookup []) = .nomatch ∧
    fuzzy_match_reference ("Freud") ("1912") []
        (build_fuzzy_lookup []) =
      fuzzy_match_citation ("Freud") ("1912") []
        (build_fuzzy_lookup []) := by
  refine ⟨?_, ?_, ?_, ?_, ?_⟩
  · exact (c2_matcher_order ("Freud") ("1912")
      [(("Freud"), ("1912"))]).1 (by decide)
  · exact (c2_matcher_order ("Freud") ("1912a")
      [(("Freud"), ("1912"))]).2.1 (by decide) (by decide) (by decide)
  · exact (c2_matcher_order ("Freud") ("1912")
      [(("Freud"), ("1912b"))]).2.2.1 [(("Freud"), ("1912b"))]
      (by decide) (by decide) (by decide) (by decide)
  · exact (c2_matcher_order ("Freud") ("1912") []).2.2.2.1
      (by decide) (by decide) (by decide)
  · exact (c2_matcher_order ("Freud") ("1912") []).2.2.2.2
      ("Freud") ("1912") [] (build_fuzzy_lookup [])

end RefCheck

namespace RefCheck
/-! ## Claim C7: worst-case block classification -/

theorem contains_iff_mem {α : Type} [DecidableEq α] (l : List α) (a : α) :
    l.contains a = true ↔ a ∈ l := by
  simp [List.contains_iff_exists_mem_beq]

theorem blockColor_eq_yellow (cs : List Color) :
    blockColor cs = .yellow ↔ .yellow ∈ cs := by
  unfold blockColor
  by_cases h : Color.yellow ∈ cs
  · rw [if_pos ((contains_iff_mem cs .yellow).mpr h)]
    simp [h]
  · rw [if_neg (fun hc => h ((contains_iff_mem cs .yellow).mp hc))]
    split_ifs <;> simp [h]

theorem blockColor_eq_cyan (cs : List Color) :
    blockColor cs = .cyan ↔ (.yellow ∉ cs ∧ .cyan ∈ cs) := by
  unfold blockColor
  by_cases h : Color.yellow ∈ cs
  · rw [if_pos ((contains_iff_mem cs .yellow).mpr h)]
    simp [h]
  · rw [if_neg (fun hc => h ((contains_iff_mem cs .yellow).mp hc))]
    by_cases h2 : Color.cyan ∈ cs
    · rw [if_pos ((contains_iff_mem cs .cyan).mpr h2)]
      simp [h, h2]
    · rw [if_neg (fun hc => h2 ((contains_iff_mem cs .cyan).mp hc))]
      simp [h, h2]

theorem blockColor_eq_green (cs : List Color) :
    blockColor cs = .green ↔ (.yellow ∉ cs ∧ .cyan ∉ cs) := by
  unfold blockColor
  by_cases h : Color.yellow ∈ cs
  · rw [if_pos ((contains_iff_mem cs .yellow).mpr h)]
    simp [h]
  · rw [if_neg (fun hc => h ((contains_iff_mem cs .yellow).mp hc))]
    by_cases h2 : Color.cyan ∈ cs
    · rw [if_pos ((contains_iff_mem cs .cyan).mpr h2)]
      simp [h, h2]
    · rw [if_neg (fun hc => h2 ((contains_iff_mem cs .cyan).mp hc))]
      simp [h, h2]

theorem determine_trichotomy (k : Key) (refs : List Key) (lk : Lookup) :
    (determine_highlight_color k.1 k.2 refs lk = .yellow ∧
       fuzzy_match_citation k.1 k.2 refs lk = .nomatch) ∨
    (determine_highlight_color k.1 k.2 refs lk = .cyan ∧
       ∃ k2, fuzzy_match_citation k.1 k.2 refs lk = .fuzzy k2) ∨
    (determine_highlight_color k.1 k.2 refs lk = .green ∧
       ∃ k2, fuzzy_match_citation k.1 k.2 refs lk = .exact k2) := by
  unfold determine_highlight_color
  rcases h : fuzzy_match_citation k.1 k.2 refs lk with k2 | k2 | _
  · right; right; exact ⟨rfl, k2, rfl⟩
  · right; left; exact ⟨rfl, k2, rfl⟩
  · left; exact ⟨rfl, rfl⟩

/-- C7 (confirmed): for a block of one or more keys, the aggregate color is
the worst case in the order unmatched > fuzzy > exact: yellow exactly when
some key is unmatched, cyan exactly when no key is unmatched and some key
resolves fuzzily, and green exactly when every key resolves exactly. -/
theorem c7_block_color_worst_case (ks : List Key) (refs : List Key)
    (lk : Lookup) (hne : ks ≠ []) :
    (blockColorOf ks refs lk = .yellow ↔
      ∃ k ∈ ks, fuzzy_match_citation k.1 k.2 refs lk = .nomatch) ∧
    (blockColorOf ks refs lk = .cyan ↔
      ((∀ k ∈ ks, fuzzy_match_citation k.1 k.2 refs lk ≠ .nomatch) ∧
       ∃ k ∈ ks, ∃ k2, fuzzy_match_citation k.1 k.2 refs lk = .fuzzy k2)) ∧
    (blockColorOf ks refs lk = .green ↔
      ∀ k ∈ ks, ∃ k2, fuzzy_match_citation k.1 k.2 refs lk = .exact k2) := by
  have hdy : ∀ k : Key, determine_highlight_color k.1 k.2 refs lk = .yellow ↔
      fuzzy_match_citation k.1 k.2 refs lk = .nomatch := by
    intro k
    rcases determine_trichotomy k refs lk with ⟨h1, h2⟩ | ⟨h1, k2, h2⟩ | ⟨h1, k2, h2⟩ <;>
      simp [h1, h2]
  have hdc : ∀ k : Key, determine_highlight_color k.1 k.2 refs lk = .cyan ↔
      ∃ k2, fuzzy_match_citation k.1 k.2 refs lk = .fuzzy k2 := by
    intro k
    rcases determine_trichotomy k refs lk with ⟨h1, h2⟩ | ⟨h1, k2, h2⟩ | ⟨h1, k2, h2⟩ <;>
      simp [h1, h2]
  have hdg : ∀ k : Key, determine_highlight_color k.1 k.2 refs lk = .green ↔
      ∃ k2, fuzzy_match_citation k.1 k.2 refs lk = .exact k2 := by
    intro k
    rcases determine_trichotomy k refs lk with ⟨h1, h2⟩ | ⟨h1, k2, h2⟩ | ⟨h1, k2, h2⟩ <;>
      simp [h1, h2]
  have htri : ∀ k : Key, determine_highlight_color k.1 k.2 refs lk = .yellow ∨
      determine_highlight_color k.1 k.2 refs lk = .cyan ∨
      determine_highlight_color k.1 k.2 refs lk = .green := by
    intro k
    rcases determine_trichotomy k refs lk with ⟨h1, _⟩ | ⟨h1, _⟩ | ⟨h1, _⟩ <;>
      simp [h1]
  unfold blockColorOf
  refine ⟨?_, ?_, ?_⟩
  · rw [blockColor_eq_yellow]
    simp only [List.mem_map]
    constructor
    · rintro ⟨k, hk, hkc⟩
      exact ⟨k, hk, (hdy k).mp hkc⟩
    · rintro ⟨k, hk, hkc⟩
      exact ⟨k, hk, (hdy k).mpr hkc⟩
  · rw [blockColor_eq_cyan]
    simp only [List.mem_map]
    constructor
    · rintro ⟨hny, k, hk, hkc⟩
      refine ⟨?_, k, hk, (hdc k).mp hkc⟩
      intro k2 hk2 hn
      exact hny ⟨k2, hk2, (hdy k2).mpr hn⟩
    · rintro ⟨hall, k, hk, hkc⟩
      refine ⟨?_, k, hk, (hdc k).mpr hkc⟩
      rintro ⟨k2, hk2, hkc2⟩
      exact hall k2 hk2 ((hdy k2).mp hkc2)
  · rw [blockColor_eq_green]
    simp only [List.mem_map]
    constructor
    · rintro ⟨hny, hnc⟩ k hk
      rcases htri k with h | h | h
      · exact absurd ⟨k, hk, h⟩ hny
      · exact absurd ⟨k, hk, h⟩ hnc
      · exact (hdg k).mp h
    · intro hall
      constructor
      · rintro ⟨k, hk, hkc⟩
        rw [(hdg k).mpr (hall k hk)] at hkc
        exact Color.noConfusion hkc
      · rintro ⟨k, hk, hkc⟩
        rw [(hdg k).mpr (hall k hk)] at hkc
        exact Color.noConfusion hkc

/-- C7 (witness): the worst-case aggregation at a concrete two-key block
(one exact key, one unmatched key). -/
theorem c7_block_color_worst_case_witness :
    (blockColorOf [(("Gelso"), ("2009")), (("Gelso"), ("2014"))]
        [(("Gelso"), ("2009"))]
        (build_fuzzy_lookup [(("Gelso"), ("2009"))]) = .yellow ↔
      ∃ k ∈ [((("Gelso") : String), (("2009") : String)),
             (("Gelso"), ("2014"))],
        fuzzy_match_citation k.1 k.2 [(("Gelso"), ("2009"))]
          (build_fuzzy_lookup [(("Gelso"), ("2009"))]) = .nomatch) :=
  (c7_block_color_worst_case
    [(("Gelso"), ("2009")), (("Gelso"), ("2014"))]
    [(("Gelso"), ("2009"))]
    (build_fuzzy_lookup [(("Gelso"), ("2009"))]) (by decide)).1

end RefCheck

namespace RefCheck

/-! ## Claim C3: reference year-suffix auto-assignment -/

set_option maxRecDepth 40000

theorem trVal_trSet_same (tr : List (Key × Nat)) (b : Key) (n : Nat) :
    trVal (trSet tr b n) b = n := by
  induction tr with
  | nil => simp [trSet, trVal]
  | cons e tr ih =>
    by_cases he : e.1 = b
    · simp [trSet, trVal, he]
    · simp [trSet, trVal, he, ih]

theorem trVal_trSet_other (tr : List (Key × Nat)) (b : Key) (n : Nat)
    (b2 : Key) (h : b2 ≠ b) : trVal (trSet tr b n) b2 = trVal tr b2 := by
  have hb : ¬ (b = b2) := fun hh => h hh.symm
  induction tr with
  | nil => simp [trSet, trVal, hb]
  | cons e tr ih =>
    by_cases he : e.1 = b
    · have he2 : ¬ e.1 = b2 := by rw [he]; exact hb
      simp [trSet, trVal, he, he2, hb]
    · by_cases he2 : e.1 = b2
      · unfold trSet
        rw [if_neg he]
        simp [trVal, he2]
      · unfold trSet
        rw [if_neg he]
        simp [trVal, he2, ih]

end RefCheck

namespace RefCheck

theorem unsuffixedSoFar_append_self (done : List Key) (k : Key)
    (hk : ¬ endsLowerDollar k.2) :
    unsuffixedSoFar (done ++ [k]) (k.1, strip_year_suffix k.2) =
      unsuffixedSoFar done (k.1, strip_year_suffix k.2) + 1 := by
  unfold unsuffixedSoFar
  rw [List.countP_append]
  simp [List.countP_cons, hk]

theorem unsuffixedSoFar_append_other (done : List Key) (k : Key) (b : Key)
    (h : ¬ (k.1 = b.1 ∧ strip_year_suffix k.2 = b.2 ∧
            ¬ endsLowerDollar k.2)) :
    unsuffixedSoFar (done ++ [k]) b = unsuffixedSoFar done b := by
  unfold unsuffixedSoFar
  rw [List.countP_append]
  simp only [List.countP_cons, List.countP_nil]
  have : ¬ (decide (k.1 = b.1) && (decide (strip_year_suffix k.2 = b.2) &&
      !endsLowerDollar k.2)) = true := by
    simp only [Bool.and_eq_true, decide_eq_true_eq, Bool.not_eq_true']
    rintro ⟨h1, h2, h3⟩
    exact h ⟨h1, h2, by simp [h3]⟩
  simp_all

theorem autoAssignGo_eq_spec (full : List Key) :
    ∀ (rest done : List Key) (tr : List (Key × Nat)),
      (∀ b : Key, 1 < countBase full b →
        trVal tr b = 97 + unsuffixedSoFar done b) →
      autoAssignGo full rest tr = specAssignGo full done rest := by
  intro rest
  induction rest with
  | nil => intro done tr _; rfl
  | cons k rest ih =>
    intro done tr hinv
    simp only [autoAssignGo, specAssignGo]
    by_cases hg : 1 < countBase full (k.1, strip_year_suffix k.2) ∧
        ¬ endsLowerDollar k.2
    · rw [if_pos hg, if_pos hg]
      have hlet := hinv _ hg.1
      rw [hlet]
      simp only [List.cons_append, List.nil_append]
      congr 1
      congr 1
      apply ih
      intro b hb
      by_cases hbb : b = (k.1, strip_year_suffix k.2)
      · subst hbb
        rw [trVal_trSet_same,
            unsuffixedSoFar_append_self done k (by simpa using hg.2)]
        omega
      · rw [trVal_trSet_other _ _ _ _ hbb, hinv b hb,
            unsuffixedSoFar_append_other]
        rintro ⟨h1, h2, _⟩
        exact hbb (by rw [h1, h2])
    · rw [if_neg hg, if_neg hg]
      simp only [List.singleton_append]
      congr 1
      apply ih
      intro b hb
      rw [hinv b hb, unsuffixedSoFar_append_other]
      rintro ⟨h1, h2, h3⟩
      apply hg
      constructor
      · have hbeq : b = (k.1, strip_year_suffix k.2) := by rw [h1, h2]
        rwa [hbeq] at hb
      · exact h3

theorem auto_assign_eq_spec (raw : List Key) :
    auto_assign raw = spec_assign raw := by
  unfold auto_assign spec_assign
  apply autoAssignGo_eq_spec
  intro b _
  simp [trVal, unsuffixedSoFar]

theorem mem_autoAssignGo (full : List Key) :
    ∀ (rest : List Key) (tr : List (Key × Nat)) (k : Key),
      k ∈ rest → k ∈ autoAssignGo full rest tr := by
  intro rest
  induction rest with
  | nil => intro tr k h; simp at h
  | cons k2 rest ih =>
    intro tr k h
    unfold autoAssignGo
    rcases List.mem_cons.mp h with h | h
    · subst h
      by_cases hg : 1 < countBase full (k.1, strip_year_suffix k.2) ∧
          ¬ endsLowerDollar k.2
      · rw [if_pos hg]
        exact List.mem_cons_of_mem _ (List.mem_cons_self _ _)
      · rw [if_neg hg]
        exact List.mem_cons_self _ _
    · by_cases hg : 1 < countBase full (k2.1, strip_year_suffix k2.2) ∧
          ¬ endsLowerDollar k2.2
      · rw [if_pos hg]
        exact List.mem_cons_of_mem _ (List.mem_cons_of_mem _ (ih _ k h))
      · rw [if_neg hg]
        exact List.mem_cons_of_mem _ (ih _ k h)

/-- C3 (counterexample): the claimed "next unused letter" rule fails: for
the bibliography `"Klein, M. (1946a). X."`, `"Klein, M. (1946). Y."`, the
letter `a` is already used by the first (explicitly suffixed) entry, so
the unsuffixed second entry should receive `b`; the code's tracker starts
at `a` regardless, re-assigning `(Klein, 1946a)` and never producing
`(Klein, 1946b)`. -/
theorem c3_suffix_counterexample :
    (((("Klein") : String), (("1946b") : String)) ∉
       extract_references_from_doc
         [("Klein, M. (1946a). X."), ("Klein, M. (1946). Y.")]) ∧
    (((("Klein") : String), (("1946a") : String)) ∈
       extract_references_from_doc
         [("Klein, M. (1946a). X."), ("Klein, M. (1946). Y.")]) ∧
    (extract_references_from_doc
         [("Klein, M. (1946a). X."), ("Klein, M. (1946). Y.")]).toFinset =
      {((("Klein") : String), (("1946a") : String)),
       ((("Klein") : String), (("1946") : String))} := by decide

/-- C3 (amended): raw entries are grouped by (surname, base year); when a
group has more than one member, each member whose year carries no letter
suffix is assigned the next letter in the fixed sequence `a`, `b`, … —
counting only the group's unsuffixed members already processed in document
order, so a letter already present as an explicit suffix may be
re-assigned — and both the suffixed and the original unsuffixed key are
added to the output set.  For the bibliography of exactly
`"Klein, M. (1946)."` twice, `extract_references_from_doc` returns the set
`{(Klein,1946a), (Klein,1946b), (Klein,1946)}`. -/
theorem c3_suffix_assignment :
    (∀ raw : List Key, auto_assign raw = spec_assign raw) ∧
    (∀ (raw : List Key) (k : Key), k ∈ raw → k ∈ auto_assign raw) ∧
    (extract_references_from_doc
        [("Klein, M. (1946)."), ("Klein, M. (1946).")]).toFinset =
      {((("Klein") : String), (("1946a") : String)),
       ((("Klein") : String), (("1946b") : String)),
       ((("Klein") : String), (("1946") : String))} := by
  refine ⟨auto_assign_eq_spec, ?_, by decide⟩
  intro raw k h
  exact mem_autoAssignGo raw raw [] k h

/-- C3 (witness): the amended statement's quantified parts at concrete
inputs. -/
theorem c3_suffix_assignment_witness :
    auto_assign [((("Klein") : String), (("1946") : String))] =
      spec_assign [((("Klein") : String), (("1946") : String))] ∧
    ((("Klein") : String), (("1946") : String)) ∈
      auto_assign [((("Klein") : String), (("1946") : String))] :=
  ⟨c3_suffix_assignment.1 _,
   c3_suffix_assignment.2.1 _ _ (by decide)⟩

end RefCheck

namespace RefCheck

/-! ## Bounds on matcher results -/

theorem matchAt_start_le_stop {p : Pat} {s : List Char} {i e : Nat}
    {cs : List (Nat × List Char)} (h : matchAt p s i = some (e, cs)) :
    i ≤ e := by
  unfold matchAt at h
  rcases hp : p ⟨s.drop i, []⟩ with _ | ⟨st, rest⟩
  · rw [hp] at h; cases h
  · rw [hp] at h
    simp only [Option.some.injEq, Prod.mk.injEq] at h
    omega

theorem matchAt_stop_le_length {p : Pat} {s : List Char} {i e : Nat}
    {cs : List (Nat × List Char)} (hi : i ≤ s.length)
    (h : matchAt p s i = some (e, cs)) : e ≤ s.length := by
  unfold matchAt at h
  rcases hp : p ⟨s.drop i, []⟩ with _ | ⟨st, rest⟩
  · rw [hp] at h; cases h
  · rw [hp] at h
    simp only [Option.some.injEq, Prod.mk.injEq] at h
    have hd : (s.drop i).length = s.length - i := List.length_drop i s
    omega

theorem findFromGo_some {p : Pat} {s : List Char} :
    ∀ (fuel i : Nat) (m : MatchRes), findFromGo p s fuel i = some m →
      i ≤ m.start ∧ m.start < i + fuel ∧
      matchAt p s m.start = some (m.stop, m.caps) := by
  intro fuel
  induction fuel with
  | zero => intro i m h; cases h
  | succ fuel ih =>
    intro i m h
    unfold findFromGo at h
    rcases hm : matchAt p s i with _ | e
    · rw [hm] at h
      rcases ih (i + 1) m h with ⟨h1, h2, h3⟩
      exact ⟨by omega, by omega, h3⟩
    · rw [hm] at h
      rcases e with ⟨e, caps⟩
      simp only [Option.some.injEq] at h
      subst h
      exact ⟨Nat.le_refl _, by show i < i + (fuel + 1); omega, hm⟩

theorem findFrom_some {p : Pat} {s : List Char} {i : Nat} {m : MatchRes}
    (h : findFrom p s i = some m) :
    i ≤ m.start ∧ m.start ≤ s.length ∧
    matchAt p s m.start = some (m.stop, m.caps) := by
  unfold findFrom at h
  rcases findFromGo_some _ _ _ h with ⟨h1, h2, h3⟩
  refine ⟨h1, ?_, h3⟩
  omega

theorem reSearch_bounds {p : Pat} {s : List Char} {m : MatchRes}
    (h : reSearch p s = some m) :
    m.start ≤ m.stop ∧ m.stop ≤ s.length := by
  rcases findFrom_some h with ⟨_, h2, h3⟩
  exact ⟨matchAt_start_le_stop h3, matchAt_stop_le_length h2 h3⟩

/-! ## Claim C6: reference paragraph highlight span -/

/-- C6 (counterexample): a reference paragraph whose `(Year)` pattern is
visible only after normalization — here a zero-width mark sits inside the
year — is classified, but the span search on the raw text fails, so the
highlighted span is the whole paragraph: it extends over the full entry
and the publisher text is marked. -/
theorem c6_span_counterexample :
    highlight_references_span
        ("Klein, M. (19​46). International Universities Press.") =
      some (0, ("Klein, M. (19​46). International Universities Press.").length) ∧
    firstYearParenStop
        ("Klein, M. (19​46). International Universities Press.") =
      none ∧
    16 < ("Klein, M. (19​46). International Universities Press.").length := by
  decide

/-- C6 (amended): for every reference paragraph that
`highlight_references` classifies, the highlighted span starts at
character 0; when the raw paragraph text contains a `(Year)` occurrence
the span ends exactly at the end of the first one (never past the end of
the text); when the occurrence exists only in the normalized text, the
span instead covers the entire paragraph. -/
theorem c6_reference_span (t : String) (sp : Nat × Nat)
    (h : highlight_references_span t = some sp) :
    sp.1 = 0 ∧
    (∀ e : Nat, firstYearParenStop t = some e →
       sp.2 = e ∧ e ≤ t.length) ∧
    (firstYearParenStop t = none → sp.2 = t.length) := by
  unfold highlight_references_span at h
  by_cases h1 : (stripL t.data).isEmpty
  · rw [if_pos h1] at h; cases h
  · rw [if_neg h1] at h
    dsimp only at h
    rcases h2 : reSearch refYearCapRe (normalize_text (stripL t.data)) with
        _ | m
    · rw [h2] at h; cases h
    · rw [h2] at h
      simp only at h
      by_cases h3 : (String.mk ((splitWs (rstripC ('.')
          (stripL ((splitC (',') (stripL (rstripC (',')
            (stripL ((normalize_text (stripL t.data)).takeWhile
              (fun c => c ≠ '(')))))).headD [])))).headD [])).isEmpty
      · rw [if_pos h3] at h; cases h
      · rw [if_neg h3] at h
        rcases h4 : reSearch refYearRe t.data with _ | m2
        · rw [h4] at h
          simp only [Option.some.injEq] at h
          subst h
          refine ⟨rfl, ?_, fun _ => rfl⟩
          intro e he
          unfold firstYearParenStop at he
          rw [h4] at he
          cases he
        · rw [h4] at h
          simp only [Option.some.injEq] at h
          subst h
          refine ⟨rfl, ?_, ?_⟩
          · intro e he
            unfold firstYearParenStop at he
            rw [h4] at he
            simp only [Option.map, Option.some.injEq] at he
            subst he
            have hb := reSearch_bounds h4
            exact ⟨rfl, hb.2⟩
          · intro he
            unfold firstYearParenStop at he
            rw [h4] at he
            cases he

/-- C6 (witness): the amended span property at a concrete classified
reference paragraph. -/
theorem c6_reference_span_witness :
    (highlight_references_span
        ("Klein, M. (1946). International Universities Press.") =
      some (0, 16)) ∧
    ((0, 16).1 = 0 ∧
     (∀ e : Nat, firstYearParenStop
         ("Klein, M. (1946). International Universities Press.") = some e →
        (0, 16).2 = e ∧
        e ≤ ("Klein, M. (1946). International Universities Press.").length) ∧
     (firstYearParenStop
         ("Klein, M. (1946). International Universities Press.") = none →
        (0, 16).2 =
          ("Klein, M. (1946). International Universities Press.").length)) :=
  ⟨by decide,
   c6_reference_span
     ("Klein, M. (1946). International Universities Press.") (0, 16)
     (by decide)⟩

end RefCheck

namespace RefCheck

/-! ## Claim C1: accepted spans of the span locator -/

/-- A pattern that never lengthens the remaining input. -/
def NonIncP (p : Pat) : Prop :=
  ∀ st st2, st2 ∈ p st → st2.rem.length ≤ st.rem.length

/-- A pattern whose every match consumes at least one character. -/
def ConsumingP (p : Pat) : Prop :=
  ∀ st st2, st2 ∈ p st → st2.rem.length < st.rem.length

theorem noninc_eps : NonIncP eps := by
  intro st st2 h
  simp only [eps, List.mem_singleton] at h
  rw [h]

theorem consuming_cls (f : Char → Bool) : ConsumingP (cls f) := by
  intro st st2 h
  rcases st with ⟨rem, caps⟩
  rcases rem with _ | ⟨c, r⟩
  · simp [cls] at h
  · simp only [cls] at h
    by_cases hf : f c = true
    · simp only [hf, if_true, List.mem_singleton] at h
      rw [h]
      simp
    · simp [hf] at h

theorem noninc_cls (f : Char → Bool) : NonIncP (cls f) :=
  fun st st2 h => Nat.le_of_lt (consuming_cls f st st2 h)

theorem noninc_pseq {p q : Pat} (hp : NonIncP p) (hq : NonIncP q) :
    NonIncP (pseq p q) := by
  intro st st2 h
  unfold pseq at h
  rcases List.mem_flatMap.mp h with ⟨mid, hmid, h2⟩
  exact Nat.le_trans (hq mid st2 h2) (hp st mid hmid)

theorem consuming_pseq_left {p q : Pat} (hp : ConsumingP p)
    (hq : NonIncP q) : ConsumingP (pseq p q) := by
  intro st st2 h
  rcases List.mem_flatMap.mp h with ⟨mid, hmid, h2⟩
  exact Nat.lt_of_le_of_lt (hq mid st2 h2) (hp st mid hmid)

theorem consuming_pseq_right {p q : Pat} (hp : NonIncP p)
    (hq : ConsumingP q) : ConsumingP (pseq p q) := by
  intro st st2 h
  rcases List.mem_flatMap.mp h with ⟨mid, hmid, h2⟩
  exact Nat.lt_of_lt_of_le (hq mid st2 h2) (hp st mid hmid)

theorem noninc_alt {p q : Pat} (hp : NonIncP p) (hq : NonIncP q) :
    NonIncP (alt p q) := by
  intro st st2 h
  rcases List.mem_append.mp h with h | h
  · exact hp st st2 h
  · exact hq st st2 h

theorem noninc_opt {p : Pat} (hp : NonIncP p) : NonIncP (opt p) :=
  noninc_alt hp noninc_eps

theorem noninc_starGo {p : Pat} : ∀ n, NonIncP (starGo p n) := by
  intro n
  induction n with
  | zero => exact noninc_eps
  | succ n ih =>
    intro st st2 h
    unfold starGo at h
    rcases List.mem_append.mp h with h | h
    · rcases List.mem_flatMap.mp h with ⟨mid, hmid, h2⟩
      have hlt := (List.mem_filter.mp hmid).2
      exact Nat.le_trans (ih mid st2 h2)
        (Nat.le_of_lt (by simpa using hlt))
    · simp only [List.mem_singleton] at h
      rw [h]

theorem noninc_star {p : Pat} : NonIncP (star p) := by
  intro st st2 h
  exact noninc_starGo _ st st2 h

theorem noninc_plus {p : Pat} (hp : NonIncP p) : NonIncP (plus p) :=
  noninc_pseq hp noninc_star

theorem noninc_grp {p : Pat} (n : Nat) (hp : NonIncP p) :
    NonIncP (grp n p) := by
  intro st st2 h
  unfold grp at h
  rcases List.mem_map.mp h with ⟨mid, hmid, h2⟩
  have : st2.rem = mid.rem := by rw [← h2]
  rw [this]
  exact hp st mid hmid

theorem noninc_seqs {ps : List Pat} (h : ∀ q ∈ ps, NonIncP q) :
    NonIncP (seqs ps) := by
  induction ps with
  | nil => exact noninc_eps
  | cons q ps ih =>
    exact noninc_pseq (h q (List.mem_cons_self _ _))
      (ih (fun r hr => h r (List.mem_cons_of_mem _ hr)))

theorem noninc_lit (w : String) : NonIncP (lit w) := by
  unfold lit
  induction w.data with
  | nil => exact noninc_eps
  | cons c cs ih => exact noninc_pseq (noninc_cls _) ih

theorem noninc_chC (c : Char) : NonIncP (chC c) := noninc_cls _

theorem noninc_capWord : NonIncP capWord :=
  noninc_pseq (noninc_cls _) (noninc_plus (noninc_cls _))

theorem noninc_capWordH : NonIncP capWordH := by
  unfold capWordH seqs
  simp only [List.foldr_cons, List.foldr_nil]
  exact noninc_pseq noninc_capWord
    (noninc_opt (noninc_pseq (noninc_chC _)
      (noninc_pseq noninc_capWord noninc_eps)))

theorem noninc_wsStar : NonIncP wsStar := noninc_star

theorem noninc_wsPlus : NonIncP wsPlus := noninc_plus (noninc_cls _)

theorem noninc_etAl : NonIncP etAl := by
  unfold etAl seqs
  simp only [List.foldr_cons, List.foldr_nil]
  exact noninc_pseq noninc_wsPlus (noninc_pseq (noninc_lit _)
    (noninc_pseq noninc_wsPlus (noninc_pseq (noninc_lit _)
      (noninc_pseq (noninc_opt (noninc_chC _)) noninc_eps))))

theorem noninc_d4 : NonIncP d4 := by
  unfold d4 seqs
  simp only [List.foldr_cons, List.foldr_nil]
  exact noninc_pseq (noninc_cls _) (noninc_pseq (noninc_cls _)
    (noninc_pseq (noninc_cls _) (noninc_pseq (noninc_cls _) noninc_eps)))

theorem noninc_yearPat : NonIncP yearPat :=
  noninc_pseq noninc_d4 (noninc_opt (noninc_cls _))

/-- The single-bracket pattern consumes at least one character (it always
passes its literal `[`). -/
theorem consuming_bracketARe : ConsumingP bracketARe := by
  unfold bracketARe seqs
  simp only [List.foldr_cons, List.foldr_nil]
  apply consuming_pseq_right
  · exact noninc_grp _ (noninc_pseq noninc_capWordH
      (noninc_pseq noninc_star
        (noninc_pseq (noninc_opt noninc_etAl) noninc_eps)))
  apply consuming_pseq_right noninc_wsStar
  apply consuming_pseq_left (consuming_cls _)
  exact noninc_pseq (noninc_grp _ noninc_yearPat)
    (noninc_pseq (noninc_chC _) noninc_eps)

end RefCheck

namespace RefCheck

theorem matchAt_consuming {p : Pat} {s : List Char} {i e : Nat}
    {cs : List (Nat × List Char)} (hc : ConsumingP p)
    (h : matchAt p s i = some (e, cs)) : i < e := by
  unfold matchAt at h
  rcases hp : p ⟨s.drop i, []⟩ with _ | ⟨st, rest⟩
  · rw [hp] at h; cases h
  · rw [hp] at h
    simp only [Option.some.injEq, Prod.mk.injEq] at h
    have hmem : st ∈ p ⟨s.drop i, []⟩ := by
      rw [hp]; exact List.mem_cons_self _ _
    have hlt := hc _ st hmem
    simp only at hlt
    omega

theorem finditerGo_mem {p : Pat} {s : List Char} :
    ∀ (fuel i : Nat) (m : MatchRes), m ∈ finditerGo p s fuel i →
      i ≤ m.start ∧ matchAt p s m.start = some (m.stop, m.caps) := by
  intro fuel
  induction fuel with
  | zero => intro i m h; cases h
  | succ fuel ih =>
    intro i m h
    unfold finditerGo at h
    rcases hf : findFrom p s i with _ | m0
    · rw [hf] at h; cases h
    · rw [hf] at h
      rcases List.mem_cons.mp h with h | h
      · subst h
        rcases findFrom_some hf with ⟨h1, _, h3⟩
        exact ⟨h1, h3⟩
      · rcases ih _ m h with ⟨h1, h2⟩
        rcases findFrom_some hf with ⟨h4, _, h6⟩
        have h7 := matchAt_start_le_stop h6
        refine ⟨?_, h2⟩
        by_cases h8 : m0.start < m0.stop
        · rw [if_pos h8] at h1; omega
        · rw [if_neg h8] at h1; omega

theorem finditerGo_pairwise {p : Pat} {s : List Char} (hc : ConsumingP p) :
    ∀ (fuel i : Nat),
      List.Pairwise (fun a b => a.stop ≤ b.start)
        (finditerGo p s fuel i) := by
  intro fuel
  induction fuel with
  | zero => intro i; exact List.Pairwise.nil
  | succ fuel ih =>
    intro i
    unfold finditerGo
    rcases hf : findFrom p s i with _ | m
    · exact List.Pairwise.nil
    · refine List.Pairwise.cons ?_ (ih _)
      intro b hb
      rcases finditerGo_mem _ _ b hb with ⟨hb1, _⟩
      have hms := (findFrom_some hf).2.2
      have hlt := matchAt_consuming hc hms
      rw [if_pos hlt] at hb1
      exact hb1

theorem finditerGo_mem_lt {p : Pat} {s : List Char} (hc : ConsumingP p)
    {fuel i : Nat} {m : MatchRes} (h : m ∈ finditerGo p s fuel i) :
    m.start < m.stop :=
  matchAt_consuming hc (finditerGo_mem _ _ m h).2

/-- The endpoint-exclusion relation the accumulator actually maintains
between an earlier accepted span and a later one: the later span neither
starts inside the earlier one nor ends inside it (it may still strictly
contain it). -/
def epFree (a b : Block) : Prop :=
  ¬ (a.start ≤ b.start ∧ b.start < a.stop) ∧
  ¬ (a.start < b.stop ∧ b.stop ≤ a.stop)

theorem pairwise_filterMap_of {α β : Type} {R : α → α → Prop}
    {S : β → β → Prop} (f : α → Option β)
    (hf : ∀ a b, R a b → ∀ x, f a = some x → ∀ y, f b = some y → S x y) :
    ∀ l : List α, List.Pairwise R l → List.Pairwise S (l.filterMap f) := by
  intro l h
  induction h with
  | nil => exact List.Pairwise.nil
  | @cons a l2 ha hl ih =>
    rw [List.filterMap_cons]
    rcases hfa : f a with _ | x
    · exact ih
    · refine List.Pairwise.cons ?_ ih
      intro y hy
      rcases List.mem_filterMap.mp hy with ⟨b, hb, hfb⟩
      exact hf a b (ha b hb) x hfa y hfb

theorem pass4a_pairwise (t : List Char) (refs : List Key) (lk : Lookup) :
    List.Pairwise epFree (pass4a t refs lk) := by
  unfold pass4a
  have hpw : List.Pairwise
      (fun a b : MatchRes => a.stop ≤ b.start ∧ a.start < a.stop ∧
        b.start < b.stop) (finditer bracketARe t) := by
    have h1 := finditerGo_pairwise (p := bracketARe) (s := t)
      consuming_bracketARe (t.length + 1) 0
    refine List.Pairwise.imp_of_mem ?_ h1
    intro a b ha hb hab
    exact ⟨hab, finditerGo_mem_lt consuming_bracketARe ha,
      finditerGo_mem_lt consuming_bracketARe hb⟩
  apply pairwise_filterMap_of _ ?_ _ hpw
  intro a b hR x hx y hy
  have hspan : ∀ (m : MatchRes) (z : Block),
      (fun m : MatchRes =>
        if is_noise (first_surname (clean_author
            (String.mk (stripL (getCap 1 m.caps))))) = true then none
        else some (⟨m.start, m.stop,
          [(first_surname (clean_author (String.mk (stripL (getCap 1 m.caps)))),
            String.mk (getCap 2 m.caps))],
          determine_highlight_color
            (first_surname (clean_author (String.mk (stripL (getCap 1 m.caps)))))
            (String.mk (getCap 2 m.caps)) refs lk⟩ : Block)) m = some z →
      z.start = m.start ∧ z.stop = m.stop := by
    intro m z hz
    simp only at hz
    split_ifs at hz
    simp only [Option.some.injEq] at hz
    rw [← hz]
    exact ⟨rfl, rfl⟩
  rcases hspan a x hx with ⟨hx1, hx2⟩
  rcases hspan b y hy with ⟨hy1, hy2⟩
  rcases hR with ⟨h1, h2, h3⟩
  constructor
  · rintro ⟨ha, hb⟩
    omega
  · rintro ⟨ha, hb⟩
    omega

theorem overlapsAny_false {spans : List (Nat × Nat)} {s e : Nat}
    (h : overlapsAny spans s e = false) :
    ∀ sp ∈ spans, ¬ (sp.1 ≤ s ∧ s < sp.2) ∧ ¬ (sp.1 < e ∧ e ≤ sp.2) := by
  intro sp hsp
  unfold overlapsAny at h
  rw [List.any_eq_false] at h
  have h2 := h sp hsp
  simp only [decide_eq_true_eq, not_or] at h2
  exact h2

theorem passOverlap_pairwise (mk : MatchRes → List Key) (refs : List Key)
    (lk : Lookup) :
    ∀ (cands : List MatchRes) (acc : List Block),
      List.Pairwise epFree acc →
      List.Pairwise epFree (passOverlap mk refs lk cands acc) := by
  intro cands
  induction cands with
  | nil => intro acc h; exact h
  | cons m rest ih =>
    intro acc h
    unfold passOverlap
    by_cases h1 : overlapsAny (acc.map (fun b => (b.start, b.stop)))
        m.start m.stop = true
    · rw [if_pos h1]
      exact ih acc h
    · rw [if_neg h1]
      dsimp only
      by_cases h2 : (mk m).isEmpty = true
      · rw [if_pos h2]
        exact ih acc h
      · rw [if_neg h2]
        apply ih
        rw [List.pairwise_append]
        refine ⟨h, List.pairwise_singleton _ _, ?_⟩
        intro a ha b hb
        simp only [List.mem_singleton] at hb
        subst hb
        have h3 := overlapsAny_false (Bool.not_eq_true _ ▸ h1)
          (a.start, a.stop)
          (List.mem_map_of_mem (fun b => (b.start, b.stop)) ha)
        exact h3

/-- C1 (counterexample): on the paragraph `"(Smith [1999], 2000)"` the
span locator accepts the bracket span `(1, 13)` and then the parenthetical
span `(0, 20)` — the skip test `hs ≤ start < he or hs < end ≤ he` does not
fire for a candidate that strictly contains an accepted span — and the two
accepted spans overlap (`1 < 20` and `0 < 13`), refuting the pairwise
non-overlap invariant. -/
theorem c1_span_overlap_counterexample :
    (highlight_body_citations_para ("(Smith [1999], 2000)") [] []).map
        (fun b => (b.start, b.stop)) = [(1, 13), (0, 20)] ∧
    ((1 : Nat) < 20 ∧ (0 : Nat) < 13) := by decide

/-- C1 (amended): in every paragraph, a later recognizer's candidate is
discarded whenever its start lies inside an already accepted span or its
end lies inside one (the half-open test `hs ≤ start < he` or
`hs < end ≤ he`); consequently, for any two accepted spans in acceptance
order, the later one never starts inside the earlier one and never ends
inside it — but a later span may strictly contain an earlier one, so full
pairwise non-overlap does not hold. -/
theorem c1_spans_endpoint_disjoint (t : String) (refs : List Key)
    (lk : Lookup) :
    List.Pairwise epFree (highlight_body_citations_para t refs lk) := by
  unfold highlight_body_citations_para
  by_cases h : (stripL (normalize_for_highlight t.data)).isEmpty = true
  · rw [if_pos h]
    exact List.Pairwise.nil
  · rw [if_neg h]
    dsimp only
    exact passOverlap_pairwise _ _ _ _ _
      (passOverlap_pairwise _ _ _ _ _
        (passOverlap_pairwise _ _ _ _ _
          (passOverlap_pairwise _ _ _ _ _
            (passOverlap_pairwise _ _ _ _ _
              (passOverlap_pairwise _ _ _ _ _
                (pass4a_pairwise _ refs lk))))))

end RefCheck

namespace RefCheck

/-! ## Claim C4: span locator vs. citation extractor -/

/-- C4 (counterexample): on the paragraph
`"Stiles et al. (e.g., 2009; Other, 2015)"` the set of keys the span
locator classifies differs from the set `extract_citations_from_text`
returns for the same text: the extractor's "Author et al. (complex)"
recognizer and its laxer lowercase pattern fire, while none of the span
locator's seven patterns yields a key. -/
theorem c4_refinement_counterexample :
    (extract_citations_from_text
        ("Stiles et al. (e.g., 2009; Other, 2015)")).toFinset ≠
      (highlightKeysPara ("Stiles et al. (e.g., 2009; Other, 2015)")
        [] []).toFinset := by decide

/-- C4 (amended): the span-locating pass runs over the length-preserving
normalization, but its seven recognizers are not the extractor's seven:
the extractor's "Author et al. (complex)" recognizer is absent from the
span pass, and the span pass's lowercase and parenthetical patterns are
stricter, so the key set classified for a paragraph can differ from
`extract_citations_from_text`'s.  On
`"Stiles et al. (e.g., 2009; Other, 2015)"` the extractor returns
`{(Stiles,2009),(Ther,2015)}` while the span locator classifies no key at
all. -/
theorem c4_recognizer_divergence :
    (extract_citations_from_text
        ("Stiles et al. (e.g., 2009; Other, 2015)")).toFinset =
      {((("Stiles") : String), (("2009") : String)),
       ((("Ther") : String), (("2015") : String))} ∧
    highlightKeysPara ("Stiles et al. (e.g., 2009; Other, 2015)") [] [] =
      [] := by decide

end RefCheck


namespace RefCheck

/-! ## Claim C5: key invariants -/

theorem upperC_ws (c : Char) : isWsC (upperC c) = isWsC c := by
  by_cases h1 : c = 'a'
  · subst h1; decide
  by_cases h2 : c = 'b'
  · subst h2; decide
  by_cases h3 : c = 'c'
  · subst h3; decide
  by_cases h4 : c = 'd'
  · subst h4; decide
  by_cases h5 : c = 'e'
  · subst h5; decide
  by_cases h6 : c = 'f'
  · subst h6; decide
  by_cases h7 : c = 'g'
  · subst h7; decide
  by_cases h8 : c = 'h'
  · subst h8; decide
  by_cases h9 : c = 'i'
  · subst h9; decide
  by_cases h10 : c = 'j'
  · subst h10; decide
  by_cases h11 : c = 'k'
  · subst h11; decide
  by_cases h12 : c = 'l'
  · subst h12; decide
  by_cases h13 : c = 'm'
  · subst h13; decide
  by_cases h14 : c = 'n'
  · subst h14; decide
  by_cases h15 : c = 'o'
  · subst h15; decide
  by_cases h16 : c = 'p'
  · subst h16; decide
  by_cases h17 : c = 'q'
  · subst h17; decide
  by_cases h18 : c = 'r'
  · subst h18; decide
  by_cases h19 : c = 's'
  · subst h19; decide
  by_cases h20 : c = 't'
  · subst h20; decide
  by_cases h21 : c = 'u'
  · subst h21; decide
  by_cases h22 : c = 'v'
  · subst h22; decide
  by_cases h23 : c = 'w'
  · subst h23; decide
  by_cases h24 : c = 'x'
  · subst h24; decide
  by_cases h25 : c = 'y'
  · subst h25; decide
  by_cases h26 : c = 'z'
  · subst h26; decide
  unfold upperC
  simp only [if_neg h1, if_neg h2, if_neg h3, if_neg h4, if_neg h5, if_neg h6, if_neg h7, if_neg h8, if_neg h9, if_neg h10, if_neg h11, if_neg h12, if_neg h13, if_neg h14, if_neg h15, if_neg h16, if_neg h17, if_neg h18, if_neg h19, if_neg h20, if_neg h21, if_neg h22, if_neg h23, if_neg h24, if_neg h25, if_neg h26]

theorem lowerC_upperC (c : Char) : lowerC (upperC c) = lowerC c := by
  by_cases h1 : c = 'a'
  · subst h1; decide
  by_cases h2 : c = 'b'
  · subst h2; decide
  by_cases h3 : c = 'c'
  · subst h3; decide
  by_cases h4 : c = 'd'
  · subst h4; decide
  by_cases h5 : c = 'e'
  · subst h5; decide
  by_cases h6 : c = 'f'
  · subst h6; decide
  by_cases h7 : c = 'g'
  · subst h7; decide
  by_cases h8 : c = 'h'
  · subst h8; decide
  by_cases h9 : c = 'i'
  · subst h9; decide
  by_cases h10 : c = 'j'
  · subst h10; decide
  by_cases h11 : c = 'k'
  · subst h11; decide
  by_cases h12 : c = 'l'
  · subst h12; decide
  by_cases h13 : c = 'm'
  · subst h13; decide
  by_cases h14 : c = 'n'
  · subst h14; decide
  by_cases h15 : c = 'o'
  · subst h15; decide
  by_cases h16 : c = 'p'
  · subst h16; decide
  by_cases h17 : c = 'q'
  · subst h17; decide
  by_cases h18 : c = 'r'
  · subst h18; decide
  by_cases h19 : c = 's'
  · subst h19; decide
  by_cases h20 : c = 't'
  · subst h20; decide
  by_cases h21 : c = 'u'
  · subst h21; decide
  by_cases h22 : c = 'v'
  · subst h22; decide
  by_cases h23 : c = 'w'
  · subst h23; decide
  by_cases h24 : c = 'x'
  · subst h24; decide
  by_cases h25 : c = 'y'
  · subst h25; decide
  by_cases h26 : c = 'z'
  · subst h26; decide
  unfold upperC
  simp only [if_neg h1, if_neg h2, if_neg h3, if_neg h4, if_neg h5, if_neg h6, if_neg h7, if_neg h8, if_neg h9, if_neg h10, if_neg h11, if_neg h12, if_neg h13, if_neg h14, if_neg h15, if_neg h16, if_neg h17, if_neg h18, if_neg h19, if_neg h20, if_neg h21, if_neg h22, if_neg h23, if_neg h24, if_neg h25, if_neg h26]

theorem upperC_idem (c : Char) : upperC (upperC c) = upperC c := by
  by_cases h1 : c = 'a'
  · subst h1; decide
  by_cases h2 : c = 'b'
  · subst h2; decide
  by_cases h3 : c = 'c'
  · subst h3; decide
  by_cases h4 : c = 'd'
  · subst h4; decide
  by_cases h5 : c = 'e'
  · subst h5; decide
  by_cases h6 : c = 'f'
  · subst h6; decide
  by_cases h7 : c = 'g'
  · subst h7; decide
  by_cases h8 : c = 'h'
  · subst h8; decide
  by_cases h9 : c = 'i'
  · subst h9; decide
  by_cases h10 : c = 'j'
  · subst h10; decide
  by_cases h11 : c = 'k'
  · subst h11; decide
  by_cases h12 : c = 'l'
  · subst h12; decide
  by_cases h13 : c = 'm'
  · subst h13; decide
  by_cases h14 : c = 'n'
  · subst h14; decide
  by_cases h15 : c = 'o'
  · subst h15; decide
  by_cases h16 : c = 'p'
  · subst h16; decide
  by_cases h17 : c = 'q'
  · subst h17; decide
  by_cases h18 : c = 'r'
  · subst h18; decide
  by_cases h19 : c = 's'
  · subst h19; decide
  by_cases h20 : c = 't'
  · subst h20; decide
  by_cases h21 : c = 'u'
  · subst h21; decide
  by_cases h22 : c = 'v'
  · subst h22; decide
  by_cases h23 : c = 'w'
  · subst h23; decide
  by_cases h24 : c = 'x'
  · subst h24; decide
  by_cases h25 : c = 'y'
  · subst h25; decide
  by_cases h26 : c = 'z'
  · subst h26; decide
  unfold upperC
  simp only [if_neg h1, if_neg h2, if_neg h3, if_neg h4, if_neg h5, if_neg h6, if_neg h7, if_neg h8, if_neg h9, if_neg h10, if_neg h11, if_neg h12, if_neg h13, if_neg h14, if_neg h15, if_neg h16, if_neg h17, if_neg h18, if_neg h19, if_neg h20, if_neg h21, if_neg h22, if_neg h23, if_neg h24, if_neg h25, if_neg h26]

theorem letter_not_ws (c : Char) (h : (isLo c || isUp c) = true) :
    isWsC c = false := by
  unfold isWsC
  simp only [Bool.or_eq_false_iff, decide_eq_false_iff_not]
  and_intros <;> intro he <;> (subst he; exact absurd h (by decide))

end RefCheck

namespace RefCheck

theorem dropWhile_head_false {p : Char → Bool} :
    ∀ (l : List Char) (c : Char) (rest : List Char),
      List.dropWhile p l = c :: rest → p c = false := by
  intro l
  induction l with
  | nil => intro c rest h; simp at h
  | cons x xs ih =>
    intro c rest h
    by_cases hx : p x = true
    · rw [List.dropWhile_cons_of_pos hx] at h
      exact ih c rest h
    · rw [List.dropWhile_cons_of_neg (by simpa using hx)] at h
      injection h with h1 _
      rw [← h1]
      simpa using hx

theorem stripL_eq (l : List Char) :
    stripL l = List.rdropWhile isWsC (List.dropWhile isWsC l) := rfl

theorem stripL_head_not (l : List Char) (c : Char) (r : List Char)
    (h : stripL l = c :: r) : isWsC c = false := by
  rw [stripL_eq] at h
  obtain ⟨t, ht⟩ :=
    List.rdropWhile_prefix (p := isWsC) (l := List.dropWhile isWsC l)
  rw [h] at ht
  exact dropWhile_head_false _ c (r ++ t) (by rw [← ht]; simp)

theorem stripL_last_not (l : List Char) (h : stripL l ≠ []) :
    isWsC ((stripL l).getLastD (' ')) = false := by
  rw [stripL_eq] at h ⊢
  have := List.rdropWhile_last_not (p := isWsC)
      (l := List.dropWhile isWsC l) h
  rw [List.getLastD_eq_getLast?, List.getLast?_eq_getLast _ h]
  simpa using this

theorem stripL_fixed_of (m : List Char)
    (hh : isWsC (m.headD (' ')) = false)
    (hl : isWsC (m.getLastD (' ')) = false) : stripL m = m := by
  rcases hm : m with _ | ⟨c, r⟩
  · rfl
  · rw [stripL_eq]
    subst hm
    have h1 : List.dropWhile isWsC (c :: r) = c :: r := by
      rw [List.dropWhile_cons_of_neg]
      simpa using hh
    rw [h1]
    rw [List.rdropWhile_eq_self_iff]
    intro hne
    rw [List.getLastD_eq_getLast?, List.getLast?_eq_getLast _ hne] at hl
    simpa using hl

theorem stripL_idem (l : List Char) : stripL (stripL l) = stripL l := by
  rcases h : stripL l with _ | ⟨c, r⟩
  · rfl
  · apply stripL_fixed_of
    · simpa using stripL_head_not l c r h
    · have := stripL_last_not l (by rw [h]; simp)
      rwa [h] at this

/-- Strings whose char list is fixed by `strip`. -/
def EdgeClean (s : String) : Prop := stripL s.data = s.data

theorem edgeClean_of_no_ws (l : List Char)
    (h : ∀ c ∈ l, isWsC c = false) : stripL l = l := by
  rcases hl : l with _ | ⟨c, r⟩
  · rfl
  · apply stripL_fixed_of
    · simpa using h c (by rw [hl]; exact List.mem_cons_self _ _)
    · subst hl
      have hne : c :: r ≠ [] := by simp
      rw [List.getLastD_eq_getLast?, List.getLast?_eq_getLast _ hne]
      exact h _ (List.getLast_mem hne)

end RefCheck

namespace RefCheck

theorem getLastD_irrel (l : List Char) (h : l ≠ []) (d1 d2 : Char) :
    l.getLastD d1 = l.getLastD d2 := by
  rw [List.getLastD_eq_getLast?, List.getLastD_eq_getLast?,
     List.getLast?_eq_getLast _ h]
  rfl

theorem normalize_surname_edgeClean (s : String) :
    EdgeClean (normalize_surname s) := by
  unfold EdgeClean normalize_surname
  rcases h : stripL s.data with _ | ⟨c, rest⟩
  · rfl
  · show stripL (upperC c :: rest) = upperC c :: rest
    apply stripL_fixed_of
    · show isWsC (upperC c) = false
      rw [upperC_ws]
      exact stripL_head_not s.data c rest h
    · rcases rest with _ | ⟨r0, rs⟩
      · show isWsC (upperC c) = false
        rw [upperC_ws]
        exact stripL_head_not s.data c [] h
      · have h2 := stripL_last_not s.data (by rw [h]; simp)
        rw [h] at h2
        rw [List.getLastD_cons] at h2 ⊢
        rwa [getLastD_irrel (r0 :: rs) (by simp) (upperC c) c]

theorem noise_transfer (s : String) (hn : is_noise s = false)
    (he : EdgeClean s) :
    is_noise (normalize_surname s) = false ∧
    3 ≤ (normalize_surname s).length ∧
    (normalize_surname s).data.headD (' ') =
      upperC ((normalize_surname s).data.headD (' ')) := by
  unfold EdgeClean at he
  unfold normalize_surname
  rw [he]
  rcases hd : s.data with _ | ⟨c, rest⟩
  · exfalso
    unfold is_noise at hn
    have : s.length = 0 := by
      show s.data.length = 0
      rw [hd]; rfl
    simp [this] at hn
  · have hlen : s.length = rest.length + 1 := by
      show s.data.length = rest.length + 1
      rw [hd]; rfl
    unfold is_noise at hn
    simp only [Bool.or_eq_false_iff, decide_eq_false_iff_not] at hn
    refine ⟨?_, ?_, ?_⟩
    · unfold is_noise
      simp only [Bool.or_eq_false_iff, decide_eq_false_iff_not]
      constructor
      · have hlow : lowerStr (String.mk (upperC c :: rest)) = lowerStr s := by
          unfold lowerStr lowerL
          rw [hd]
          simp [lowerC_upperC]
        rw [hlow]
        simpa using (by simpa using hn.1 : ¬ (lowerStr s ∈ NOISE_WORDS))
      · show ¬ (String.mk (upperC c :: rest)).length ≤ 2
        have : (String.mk (upperC c :: rest)).length = rest.length + 1 := rfl
        rw [this]
        rw [hlen] at hn
        exact hn.2
    · show 3 ≤ (String.mk (upperC c :: rest)).length
      have : (String.mk (upperC c :: rest)).length = rest.length + 1 := rfl
      rw [this]
      rw [hlen] at hn
      omega
    · show (upperC c :: rest).headD (' ') =
        upperC ((upperC c :: rest).headD (' '))
      simp only [List.headD_cons]
      exact (upperC_idem c).symm

theorem splitWs_tokens :
    ∀ (l : List Char) (t : List Char), t ∈ splitWs l →
      t ≠ [] ∧ ∀ c ∈ t, isWsC c = false := by
  intro l
  induction l with
  | nil => intro t ht; simp [splitWs] at ht
  | cons x xs ih =>
    intro t ht
    unfold splitWs at ht
    by_cases hx : isWsC x = true
    · rw [if_pos hx] at ht
      exact ih t ht
    · rw [if_neg hx] at ht
      rcases hs : splitWs xs with _ | ⟨p, ps⟩
      · rw [hs] at ht
        simp only [List.mem_singleton] at ht
        subst ht
        refine ⟨by simp, ?_⟩
        intro c hc
        simp only [List.mem_singleton] at hc
        subst hc
        simpa using hx
      · rw [hs] at ht
        rcases xs with _ | ⟨y, ys⟩
        · simp [splitWs] at hs
        · dsimp only at ht
          by_cases hy : isWsC y = true
          · rw [if_pos hy] at ht
            rcases List.mem_cons.mp ht with ht | ht
            · subst ht
              refine ⟨by simp, ?_⟩
              intro c hc
              simp only [List.mem_singleton] at hc
              subst hc
              simpa using hx
            · exact ih t (by rw [hs]; exact ht)
          · rw [if_neg hy] at ht
            rcases List.mem_cons.mp ht with ht | ht
            · subst ht
              have hp := ih p (by rw [hs]; exact List.mem_cons_self _ _)
              refine ⟨by simp, ?_⟩
              intro c hc
              rcases List.mem_cons.mp hc with hc | hc
              · subst hc; simpa using hx
              · exact hp.2 c hc
            · exact ih t (by rw [hs]; exact List.mem_cons_of_mem _ ht)

theorem idxOfL_le (v : List Char) :
    ∀ l : List (List Char), idxOfL v l ≤ l.length := by
  intro l
  induction l with
  | nil => simp [idxOfL]
  | cons x xs ih =>
    unfold idxOfL
    by_cases h : x = v
    · rw [if_pos h]; simp
    · rw [if_neg h]
      simp only [List.length_cons]
      omega

theorem getD_mem {α : Type} (d : α) :
    ∀ (l : List α) (i : Nat), i < l.length → l.getD i d ∈ l := by
  intro l
  induction l with
  | nil => intro i h; simp at h
  | cons x xs ih =>
    intro i h
    rcases i with _ | j
    · simp
    · simp only [List.getD_cons_succ]
      exact List.mem_cons_of_mem _ (ih j (by simpa using h))

theorem getLastD_mem {α : Type} (d : α) (l : List α) (h : l ≠ []) :
    l.getLastD d ∈ l := by
  rw [List.getLastD_eq_getLast?, List.getLast?_eq_getLast _ h]
  exact List.getLast_mem h

end RefCheck

namespace RefCheck

theorem getLastD_append (l2 : List Char) (d : Char) (h2 : l2 ≠ []) :
    ∀ l1 : List Char, (l1 ++ l2).getLastD d = l2.getLastD d := by
  intro l1
  induction l1 with
  | nil => rfl
  | cons x l1 ih =>
    rw [List.cons_append, List.getLastD_cons]
    have hne : l1 ++ l2 ≠ [] := by
      intro hc
      rcases List.append_eq_nil.mp hc with ⟨_, h⟩
      exact h2 h
    rw [getLastD_irrel _ hne x d, ih]

/-- `first_surname` returns either a `normalize_surname` image or, in the
particle branch, a particle token and the last capitalized token (both
whitespace-free `splitWs` tokens) joined by one space. -/
theorem first_surname_shape (a : String) :
    (∃ s, first_surname a = normalize_surname s) ∨
    (∃ tok lastCap : List Char, tok ≠ [] ∧
      (∀ c ∈ tok, isWsC c = false) ∧ lastCap ≠ [] ∧
      (∀ c ∈ lastCap, isWsC c = false) ∧
      first_surname a = String.mk (tok ++ [' '] ++ lastCap)) := by
  unfold first_surname
  dsimp only
  rcases hp : splitWs (stripL (rstripC ('.') (stripL (stripL
      ((takeUntilSub (" and ".data) (takeUntilSub (" & ".data)
        (takeUntilSub (" et al".data) a.data))).takeWhile
          (fun c => c ≠ ',')))))) with _ | ⟨p0, prest⟩
  · left; exact ⟨_, rfl⟩
  · dsimp only
    by_cases h2 : 2 ≤ ((p0 :: prest).filter
        (fun p => isUp (p.headD (' ')))).length
    · rw [if_pos h2]
      by_cases h3 : 0 < idxOfL (((p0 :: prest).filter
          (fun p => isUp (p.headD (' ')))).getLastD []) (p0 :: prest)
      · rw [if_pos h3]
        by_cases h4 : particles.contains (String.mk (lowerL
            ((p0 :: prest).getD ((idxOfL (((p0 :: prest).filter
              (fun p => isUp (p.headD (' ')))).getLastD [])
                (p0 :: prest)) - 1) [])))
        · rw [if_pos h4]
          right
          have hcne : ((p0 :: prest).filter
              (fun p => isUp (p.headD (' ')))) ≠ [] := by
            intro hc
            rw [hc] at h2
            simp at h2
          have hlc : (((p0 :: prest).filter
              (fun p => isUp (p.headD (' ')))).getLastD []) ∈
                (p0 :: prest) :=
            List.mem_of_mem_filter (getLastD_mem _ _ hcne)
          have hlc2 := splitWs_tokens _ _ (by rw [hp]; exact hlc)
          have hidx : (idxOfL (((p0 :: prest).filter
              (fun p => isUp (p.headD (' ')))).getLastD [])
                (p0 :: prest)) - 1 < (p0 :: prest).length := by
            have := idxOfL_le (((p0 :: prest).filter
              (fun p => isUp (p.headD (' ')))).getLastD []) (p0 :: prest)
            simp only [List.length_cons] at *
            omega
          have htok : ((p0 :: prest).getD ((idxOfL (((p0 :: prest).filter
              (fun p => isUp (p.headD (' ')))).getLastD [])
                (p0 :: prest)) - 1) []) ∈ (p0 :: prest) :=
            getD_mem _ _ _ hidx
          have htok2 := splitWs_tokens _ _ (by rw [hp]; exact htok)
          exact ⟨_, _, htok2.1, htok2.2, hlc2.1, hlc2.2, rfl⟩
        · rw [if_neg h4]
          left; exact ⟨_, rfl⟩
      · rw [if_neg h3]
        left; exact ⟨_, rfl⟩
    · rw [if_neg h2]
      left; exact ⟨_, rfl⟩

theorem first_surname_edgeClean (a : String) :
    EdgeClean (first_surname a) := by
  rcases first_surname_shape a with ⟨s, hs⟩ | ⟨tok, lastCap, h1, h2, h3, h4, h5⟩
  · rw [hs]; exact normalize_surname_edgeClean s
  · rw [h5]
    show stripL (tok ++ [' '] ++ lastCap) = tok ++ [' '] ++ lastCap
    apply stripL_fixed_of
    · rcases tok with _ | ⟨t0, ts⟩
      · exact absurd rfl h1
      · show isWsC ((t0 :: (ts ++ [' '] ++ lastCap)).headD (' ')) = false
        simp only [List.headD_cons]
        exact h2 t0 (List.mem_cons_self _ _)
    · rw [List.append_assoc, getLastD_append _ _ (by
        intro hc
        rcases List.append_eq_nil.mp hc with ⟨_, h⟩
        exact h3 h)]
      rw [getLastD_append _ _ h3]
      exact h4 _ (getLastD_mem _ _ h3)

end RefCheck

namespace RefCheck

/-- A pattern that never records a capture. -/
def NoCapsP (p : Pat) : Prop := ∀ st st2, st2 ∈ p st → st2.caps = st.caps

/-- A pattern whose every match consumes only characters satisfying `P`. -/
def ShapeP (P : Char → Bool) (p : Pat) : Prop :=
  ∀ st st2, st2 ∈ p st →
    ∃ pre, st.rem = pre ++ st2.rem ∧ ∀ c ∈ pre, P c = true

/-- A pattern all of whose group-`n` captures consist of characters
satisfying `P` (unless inherited from the starting state). -/
def CapsBound (P : Char → Bool) (n : Nat) (p : Pat) : Prop :=
  ∀ st st2, st2 ∈ p st → ∀ v, (n, v) ∈ st2.caps →
    (n, v) ∈ st.caps ∨ ∀ c ∈ v, P c = true

theorem nocaps_eps : NoCapsP eps := by
  intro st st2 h
  simp only [eps, List.mem_singleton] at h
  rw [h]

theorem nocaps_cls (f : Char → Bool) : NoCapsP (cls f) := by
  intro st st2 h
  unfold cls at h
  rcases st with ⟨rem, caps⟩
  rcases rem with _ | ⟨c, r⟩
  · simp at h
  · simp only at h
    by_cases hf : f c = true
    · rw [if_pos hf] at h
      simp only [List.mem_singleton] at h
      rw [h]
    · rw [if_neg hf] at h
      simp at h

theorem nocaps_chC (c : Char) : NoCapsP (chC c) := nocaps_cls _

theorem nocaps_pseq {p q : Pat} (hp : NoCapsP p) (hq : NoCapsP q) :
    NoCapsP (pseq p q) := by
  intro st st2 h
  rcases List.mem_flatMap.mp h with ⟨mid, hmid, h2⟩
  rw [hq mid st2 h2, hp st mid hmid]

theorem nocaps_alt {p q : Pat} (hp : NoCapsP p) (hq : NoCapsP q) :
    NoCapsP (alt p q) := by
  intro st st2 h
  rcases List.mem_append.mp h with h | h
  · exact hp st st2 h
  · exact hq st st2 h

theorem nocaps_opt {p : Pat} (hp : NoCapsP p) : NoCapsP (opt p) :=
  nocaps_alt hp nocaps_eps

theorem nocaps_starGo {p : Pat} (hp : NoCapsP p) :
    ∀ n, NoCapsP (starGo p n) := by
  intro n
  induction n with
  | zero => exact nocaps_eps
  | succ n ih =>
    intro st st2 h
    unfold starGo at h
    rcases List.mem_append.mp h with h | h
    · rcases List.mem_flatMap.mp h with ⟨mid, hmid, h2⟩
      rw [ih mid st2 h2, hp st mid (List.mem_filter.mp hmid).1]
    · simp only [List.mem_singleton] at h
      rw [h]

theorem nocaps_star {p : Pat} (hp : NoCapsP p) : NoCapsP (star p) :=
  fun st st2 h => nocaps_starGo hp _ st st2 h

theorem nocaps_plus {p : Pat} (hp : NoCapsP p) : NoCapsP (plus p) :=
  nocaps_pseq hp (nocaps_star hp)

theorem nocaps_repMax {p : Pat} (hp : NoCapsP p) :
    ∀ n, NoCapsP (repMax p n) := by
  intro n
  induction n with
  | zero => exact nocaps_eps
  | succ n ih =>
    intro st st2 h
    unfold repMax at h
    rcases List.mem_append.mp h with h | h
    · rcases List.mem_flatMap.mp h with ⟨mid, hmid, h2⟩
      rw [ih mid st2 h2, hp st mid (List.mem_filter.mp hmid).1]
    · simp only [List.mem_singleton] at h
      rw [h]

theorem nocaps_negLa (p : Pat) : NoCapsP (negLa p) := by
  intro st st2 h
  unfold negLa at h
  by_cases hp : (p st).isEmpty
  · rw [if_pos hp] at h
    simp only [List.mem_singleton] at h
    rw [h]
  · rw [if_neg hp] at h
    simp at h

theorem nocaps_charFold (g : Char → Char → Bool) :
    ∀ w : List Char,
      NoCapsP (w.foldr (fun c m => pseq (cls (fun x => g x c)) m) eps) := by
  intro w
  induction w with
  | nil => exact nocaps_eps
  | cons c cs ih => exact nocaps_pseq (nocaps_cls _) ih

theorem nocaps_lit (w : String) : NoCapsP (lit w) := by
  unfold lit
  have := nocaps_charFold (fun x c => x = c) w.data
  simpa using this

theorem nocaps_litI (w : String) : NoCapsP (litI w) := by
  unfold litI
  have := nocaps_charFold (fun x c => lowerC x = lowerC c) w.data
  simpa using this

theorem nocaps_alts {ps : List Pat} (h : ∀ q ∈ ps, NoCapsP q) :
    NoCapsP (alts ps) := by
  induction ps with
  | nil => intro st st2 hm; simp [alts] at hm
  | cons q ps ih =>
    exact nocaps_alt (h q (List.mem_cons_self _ _))
      (ih (fun r hr => h r (List.mem_cons_of_mem _ hr)))

theorem nocaps_capWord : NoCapsP capWord :=
  nocaps_pseq (nocaps_cls _) (nocaps_plus (nocaps_cls _))

theorem shape_eps (P : Char → Bool) : ShapeP P eps := by
  intro st st2 h
  simp only [eps, List.mem_singleton] at h
  exact ⟨[], by rw [h]; rfl, by simp⟩

theorem shape_cls {P f : Char → Bool} (hf : ∀ c, f c = true → P c = true) :
    ShapeP P (cls f) := by
  intro st st2 h
  unfold cls at h
  rcases st with ⟨rem, caps⟩
  rcases rem with _ | ⟨c, r⟩
  · simp at h
  · simp only at h
    by_cases hc : f c = true
    · rw [if_pos hc] at h
      simp only [List.mem_singleton] at h
      refine ⟨[c], by rw [h]; rfl, ?_⟩
      intro x hx
      simp only [List.mem_singleton] at hx
      rw [hx]
      exact hf c hc
    · rw [if_neg hc] at h
      simp at h

theorem shape_pseq {P : Char → Bool} {p q : Pat} (hp : ShapeP P p)
    (hq : ShapeP P q) : ShapeP P (pseq p q) := by
  intro st st2 h
  rcases List.mem_flatMap.mp h with ⟨mid, hmid, h2⟩
  rcases hp st mid hmid with ⟨pre1, he1, hc1⟩
  rcases hq mid st2 h2 with ⟨pre2, he2, hc2⟩
  refine ⟨pre1 ++ pre2, ?_, ?_⟩
  · rw [he1, he2, List.append_assoc]
  · intro c hc
    rcases List.mem_append.mp hc with hc | hc
    · exact hc1 c hc
    · exact hc2 c hc

theorem shape_starGo {P : Char → Bool} {p : Pat} (hp : ShapeP P p) :
    ∀ n, ShapeP P (starGo p n) := by
  intro n
  induction n with
  | zero => exact shape_eps P
  | succ n ih =>
    intro st st2 h
    unfold starGo at h
    rcases List.mem_append.mp h with h | h
    · rcases List.mem_flatMap.mp h with ⟨mid, hmid, h2⟩
      rcases hp st mid (List.mem_filter.mp hmid).1 with ⟨pre1, he1, hc1⟩
      rcases ih mid st2 h2 with ⟨pre2, he2, hc2⟩
      refine ⟨pre1 ++ pre2, by rw [he1, he2, List.append_assoc], ?_⟩
      intro c hc
      rcases List.mem_append.mp hc with hc | hc
      · exact hc1 c hc
      · exact hc2 c hc
    · simp only [List.mem_singleton] at h
      exact ⟨[], by rw [h]; rfl, by simp⟩

theorem shape_star {P : Char → Bool} {p : Pat} (hp : ShapeP P p) :
    ShapeP P (star p) :=
  fun st st2 h => shape_starGo hp _ st st2 h

theorem shape_plus {P : Char → Bool} {p : Pat} (hp : ShapeP P p) :
    ShapeP P (plus p) :=
  shape_pseq hp (shape_star hp)

theorem shape_capWord :
    ShapeP (fun c => isUp c || isLo c) capWord :=
  shape_pseq (shape_cls (fun c hc => by simp [hc]))
    (shape_plus (shape_cls (fun c hc => by simp [hc])))

end RefCheck

namespace RefCheck

theorem capsb_of_nocaps {P : Char → Bool} {n : Nat} {p : Pat}
    (hp : NoCapsP p) : CapsBound P n p := by
  intro st st2 h v hv
  left
  rw [← hp st st2 h]
  exact hv

theorem capsb_pseq {P : Char → Bool} {n : Nat} {p q : Pat}
    (hp : CapsBound P n p) (hq : CapsBound P n q) : CapsBound P n (pseq p q) := by
  intro st st2 h v hv
  rcases List.mem_flatMap.mp h with ⟨mid, hmid, h2⟩
  rcases hq mid st2 h2 v hv with hv2 | hv2
  · exact hp st mid hmid v hv2
  · right; exact hv2

theorem capsb_alt {P : Char → Bool} {n : Nat} {p q : Pat}
    (hp : CapsBound P n p) (hq : CapsBound P n q) : CapsBound P n (alt p q) := by
  intro st st2 h v hv
  rcases List.mem_append.mp h with h | h
  · exact hp st st2 h v hv
  · exact hq st st2 h v hv

theorem capsb_opt {P : Char → Bool} {n : Nat} {p : Pat}
    (hp : CapsBound P n p) : CapsBound P n (opt p) :=
  capsb_alt hp (capsb_of_nocaps nocaps_eps)

theorem capsb_grp_same {P : Char → Bool} {n : Nat} {p : Pat}
    (hn : NoCapsP p) (hs : ShapeP P p) : CapsBound P n (grp n p) := by
  intro st st2' h v hv
  rcases List.mem_map.mp h with ⟨st2, hst2, he⟩
  rw [← he] at hv
  simp only [List.mem_cons, Prod.mk.injEq] at hv
  rcases hv with ⟨_, hv⟩ | hv
  · right
    rcases hs st st2 hst2 with ⟨pre, hpre, hc⟩
    have hlen : st.rem.length - st2.rem.length = pre.length := by
      rw [hpre, List.length_append]; omega
    rw [hv, hlen, hpre, List.take_left]
    exact hc
  · left
    rw [← hn st st2 hst2]
    exact hv

theorem capsb_grp_other {P : Char → Bool} {n m : Nat} {p : Pat}
    (hnm : m ≠ n) (hp : CapsBound P n p) : CapsBound P n (grp m p) := by
  intro st st2' h v hv
  rcases List.mem_map.mp h with ⟨st2, hst2, he⟩
  rw [← he] at hv
  simp only [List.mem_cons, Prod.mk.injEq] at hv
  rcases hv with ⟨hnv, _⟩ | hv
  · exact absurd hnv.symm hnm
  · exact hp st st2 hst2 v hv

theorem nocaps_wsPlus : NoCapsP wsPlus := nocaps_plus (nocaps_cls _)

theorem nocaps_possGap : NoCapsP possGap :=
  nocaps_repMax (nocaps_pseq (nocaps_negLa _) (nocaps_cls _)) 80

/-- Group 2 of the possessive pattern captures only letters. -/
theorem capsb_possessive :
    CapsBound (fun c => isUp c || isLo c) 2 possessiveRe := by
  unfold possessiveRe seqs
  simp only [List.foldr_cons, List.foldr_nil]
  exact capsb_pseq
    (capsb_opt (capsb_pseq
      (capsb_grp_other (by decide) (capsb_of_nocaps nocaps_capWord))
      (capsb_of_nocaps (nocaps_pseq nocaps_wsPlus nocaps_eps))))
    (capsb_pseq (capsb_grp_same nocaps_capWord shape_capWord)
      (capsb_pseq (capsb_of_nocaps (nocaps_chC _))
      (capsb_pseq (capsb_of_nocaps (nocaps_chC _))
      (capsb_pseq (capsb_of_nocaps nocaps_wsPlus)
      (capsb_pseq (capsb_of_nocaps nocaps_possGap)
      (capsb_pseq (capsb_of_nocaps (nocaps_chC _))
      (capsb_pseq (capsb_grp_other (by decide)
        (capsb_of_nocaps (nocaps_plus (nocaps_cls _))))
      (capsb_pseq (capsb_of_nocaps (nocaps_chC _))
        (capsb_of_nocaps nocaps_eps)))))))))

end RefCheck

namespace RefCheck

theorem nocaps_wsStar : NoCapsP wsStar := nocaps_star (nocaps_cls _)

/-- Group 1 of the colleagues pattern captures only letters. -/
theorem capsb_colleagues :
    CapsBound (fun c => isUp c || isLo c) 1 colleaguesRe := by
  unfold colleaguesRe seqs
  simp only [List.foldr_cons, List.foldr_nil]
  refine capsb_pseq (capsb_grp_same nocaps_capWord shape_capWord)
    (capsb_pseq (capsb_of_nocaps nocaps_wsPlus)
    (capsb_pseq (capsb_of_nocaps (nocaps_lit _))
    (capsb_pseq (capsb_of_nocaps nocaps_wsPlus)
    (capsb_pseq (capsb_of_nocaps (nocaps_alts ?_))
    (capsb_pseq (capsb_of_nocaps nocaps_wsStar)
    (capsb_pseq (capsb_of_nocaps (nocaps_chC _))
    (capsb_pseq (capsb_grp_other (by decide)
      (capsb_of_nocaps (nocaps_plus (nocaps_cls _))))
    (capsb_pseq (capsb_of_nocaps (nocaps_chC _))
      (capsb_of_nocaps nocaps_eps)))))))))
  intro q hq
  simp only [List.mem_cons, List.not_mem_nil, or_false] at hq
  rcases hq with h | h | h <;> (subst h; exact nocaps_lit _)

/-- Group 1 of the complex et-al pattern captures only letters. -/
theorem capsb_etalComplex :
    CapsBound (fun c => isUp c || isLo c) 1 etalComplexRe := by
  unfold etalComplexRe seqs
  simp only [List.foldr_cons, List.foldr_nil]
  exact capsb_pseq (capsb_grp_same nocaps_capWord shape_capWord)
    (capsb_pseq (capsb_of_nocaps nocaps_wsPlus)
    (capsb_pseq (capsb_of_nocaps (nocaps_lit _))
    (capsb_pseq (capsb_of_nocaps nocaps_wsPlus)
    (capsb_pseq (capsb_of_nocaps (nocaps_lit _))
    (capsb_pseq (capsb_of_nocaps (nocaps_opt (nocaps_chC _)))
    (capsb_pseq (capsb_of_nocaps nocaps_wsStar)
    (capsb_pseq (capsb_of_nocaps (nocaps_chC _))
    (capsb_pseq (capsb_grp_other (by decide)
      (capsb_of_nocaps (nocaps_plus (nocaps_cls _))))
    (capsb_pseq (capsb_of_nocaps (nocaps_chC _))
      (capsb_of_nocaps nocaps_eps))))))))))

/-- A successful anchored match of a `CapsBound` pattern yields group-`n`
contents made up of `P`-characters. -/
theorem matchAt_caps {P : Char → Bool} {n : Nat} {p : Pat}
    (hb : CapsBound P n p) {s : List Char} {i e : Nat}
    {caps : List (Nat × List Char)} (h : matchAt p s i = some (e, caps)) :
    ∀ c ∈ getCap n caps, P c = true := by
  unfold matchAt at h
  rcases hq : p ⟨s.drop i, []⟩ with _ | ⟨st, rest⟩
  · rw [hq] at h; exact absurd h (by simp)
  · rw [hq] at h
    simp only [Option.some.injEq, Prod.mk.injEq] at h
    have hmem : st ∈ p ⟨s.drop i, []⟩ := by rw [hq]; exact List.mem_cons_self _ _
    unfold getCap
    rcases hf : caps.find? (fun e => e.1 = n) with _ | e
    · rw [hf]; simp
    · rw [hf]
      simp only [Option.map_some', Option.getD_some]
      have he1 : e.1 = n := by
        have := List.find?_some hf
        simpa using this
      have hin : (n, e.2) ∈ st.caps := by
        rw [h.2]
        have : e ∈ caps := List.mem_of_find?_eq_some hf
        rwa [show ((n, e.2) : Nat × List Char) = e by rw [← he1]]
      rcases hb _ st hmem e.2 hin with hc | hc
      · exact absurd hc (by simp)
      · exact hc

theorem findFromGo_matchAt {p : Pat} {s : List Char} :
    ∀ fuel i m, findFromGo p s fuel i = some m →
      matchAt p s m.start = some (m.stop, m.caps) := by
  intro fuel
  induction fuel with
  | zero => intro i m h; exact absurd h (by simp [findFromGo])
  | succ fuel ih =>
    intro i m h
    unfold findFromGo at h
    rcases hm : matchAt p s i with _ | ⟨e, caps⟩
    · rw [hm] at h
      exact ih (i + 1) m h
    · rw [hm] at h
      simp only [Option.some.injEq] at h
      rw [← h]
      exact hm

theorem finditerGo_matchAt {p : Pat} {s : List Char} :
    ∀ fuel i m, m ∈ finditerGo p s fuel i →
      matchAt p s m.start = some (m.stop, m.caps) := by
  intro fuel
  induction fuel with
  | zero => intro i m h; exact absurd h (by simp [finditerGo])
  | succ fuel ih =>
    intro i m h
    unfold finditerGo at h
    rcases hf : findFrom p s i with _ | m0
    · rw [hf] at h; exact absurd h (by simp)
    · rw [hf] at h
      rcases List.mem_cons.mp h with h | h
      · rw [h]
        exact findFromGo_matchAt _ _ m0 hf
      · exact ih _ m h

/-- Characters of a captured group of any `finditer` match satisfy the
pattern's capture bound. -/
theorem finditer_caps {P : Char → Bool} {n : Nat} {p : Pat}
    (hb : CapsBound P n p) {s : List Char} {m : MatchRes}
    (hm : m ∈ finditer p s) : ∀ c ∈ getCap n m.caps, P c = true :=
  matchAt_caps hb (finditerGo_matchAt _ _ m hm)

end RefCheck


namespace RefCheck

/-- The invariant the set-building recognizers establish before the final
capitalization: the surname passed the noise filter and is fixed by
`strip`. -/
def GoodKey (k : Key) : Prop := is_noise k.1 = false ∧ EdgeClean k.1

/-- The state invariant of the author-inheritance fold. -/
def GoodSt (st : List Key × Option String) : Prop :=
  (∀ k ∈ st.1, GoodKey k) ∧
  (∀ la, st.2 = some la → is_noise la = false ∧ EdgeClean la)

theorem inheritStep_good (acc : List Key × Option String) (part : List Char)
    (h : GoodSt acc) : GoodSt (inheritStep acc part) := by
  simp only [inheritStep]
  generalize (segYears part) = Y
  generalize (segAuthor part) = A
  obtain ⟨S, hgS, hS⟩ : ∃ S, first_surname A = S ∧ EdgeClean S :=
    ⟨_, rfl, first_surname_edgeClean _⟩
  rw [hgS]
  by_cases h1 : Y.isEmpty = true
  · rw [if_pos h1]; exact h
  · rw [if_neg h1]
    by_cases h2 : 2 < A.length
    · rw [if_pos h2]
      by_cases h3 : is_noise S = true
      · rw [if_pos h3]; exact h
      · rw [if_neg h3]
        constructor
        · intro k hk
          rcases List.mem_append.mp hk with hk | hk
          · exact h.1 k hk
          · rcases List.mem_map.mp hk with ⟨y, hy, he⟩
            rw [← he]
            exact ⟨Bool.eq_false_iff.mpr h3, hS⟩
        · intro la hla
          simp only [Option.some.injEq] at hla
          rw [← hla]
          exact ⟨Bool.eq_false_iff.mpr h3, hS⟩
    · rw [if_neg h2]
      rcases h4 : acc.2 with _ | la
      · dsimp only; exact h
      · dsimp only
        constructor
        · intro k hk
          rcases List.mem_append.mp hk with hk | hk
          · exact h.1 k hk
          · rcases List.mem_map.mp hk with ⟨y, hy, he⟩
            rw [← he]
            exact ⟨(h.2 la h4).1, (h.2 la h4).2⟩
        · intro la2 hla2
          simp only [Option.some.injEq] at hla2
          rw [← hla2]
          exact h.2 la h4

theorem foldl_inheritStep_good :
    ∀ (parts : List (List Char)) (st : List Key × Option String),
      GoodSt st → GoodSt (parts.foldl inheritStep st) := by
  intro parts
  induction parts with
  | nil => intro st h; exact h
  | cons p ps ih =>
    intro st h
    exact ih _ (inheritStep_good st p h)

theorem blockKeysInherit_good (parts : List (List Char)) :
    ∀ k ∈ blockKeysInherit parts, GoodKey k := by
  unfold blockKeysInherit
  exact (foldl_inheritStep_good parts ([], none)
    ⟨by intro k hk; exact absurd hk (by simp),
     by intro la hla; exact absurd hla (by simp)⟩).1

theorem plainStep_good (acc : List Key) (part : List Char)
    (h : ∀ k ∈ acc, GoodKey k) : ∀ k ∈ plainStep acc part, GoodKey k := by
  simp only [plainStep]
  generalize (segYears part) = Y
  generalize (segAuthor part) = A
  obtain ⟨S, hgS, hS⟩ : ∃ S, first_surname A = S ∧ EdgeClean S :=
    ⟨_, rfl, first_surname_edgeClean _⟩
  rw [hgS]
  by_cases h1 : Y.isEmpty = true
  · rw [if_pos h1]; exact h
  · rw [if_neg h1]
    by_cases h2 : 2 < A.length
    · rw [if_pos h2]
      by_cases h3 : is_noise S = true
      · rw [if_pos h3]; exact h
      · rw [if_neg h3]
        intro k hk
        rcases List.mem_append.mp hk with hk | hk
        · exact h k hk
        · rcases List.mem_map.mp hk with ⟨y, hy, he⟩
          rw [← he]
          exact ⟨Bool.eq_false_iff.mpr h3, hS⟩
    · rw [if_neg h2]; exact h

theorem blockKeysPlain_good (parts : List (List Char)) :
    ∀ k ∈ blockKeysPlain parts, GoodKey k := by
  unfold blockKeysPlain
  have hgen : ∀ (ps : List (List Char)) (acc : List Key),
      (∀ k ∈ acc, GoodKey k) → ∀ k ∈ ps.foldl plainStep acc, GoodKey k := by
    intro ps
    induction ps with
    | nil => intro acc h; exact h
    | cons p ps ih => intro acc h; exact ih _ (plainStep_good acc p h)
  exact hgen parts [] (by intro k hk; exact absurd hk (by simp))

theorem fallbackStep_good (fb : String) (hfb : EdgeClean fb)
    (acc : List Key) (part : List Char) (h : ∀ k ∈ acc, GoodKey k) :
    ∀ k ∈ fallbackStep fb acc part, GoodKey k := by
  simp only [fallbackStep]
  generalize (segYears part) = Y
  generalize (segAuthor part) = A
  obtain ⟨S, hgS, hS⟩ : ∃ S, first_surname A = S ∧ EdgeClean S :=
    ⟨_, rfl, first_surname_edgeClean _⟩
  rw [hgS]
  by_cases h1 : Y.isEmpty = true
  · rw [if_pos h1]; exact h
  · rw [if_neg h1]
    by_cases h2 : 2 < A.length
    · rw [if_pos h2]
      by_cases h3 : is_noise S = true
      · rw [if_pos h3]; exact h
      · rw [if_neg h3]
        intro k hk
        rcases List.mem_append.mp hk with hk | hk
        · exact h k hk
        · rcases List.mem_map.mp hk with ⟨y, hy, he⟩
          rw [← he]
          exact ⟨Bool.eq_false_iff.mpr h3, hS⟩
    · rw [if_neg h2]
      by_cases h4 : is_noise fb = true
      · rw [if_pos h4]; exact h
      · rw [if_neg h4]
        intro k hk
        rcases List.mem_append.mp hk with hk | hk
        · exact h k hk
        · rcases List.mem_map.mp hk with ⟨y, hy, he⟩
          rw [← he]
          exact ⟨Bool.eq_false_iff.mpr h4, hfb⟩

theorem blockKeysFallback_good (fb : String) (hfb : EdgeClean fb)
    (parts : List (List Char)) :
    ∀ k ∈ blockKeysFallback fb parts, GoodKey k := by
  unfold blockKeysFallback
  have hgen : ∀ (ps : List (List Char)) (acc : List Key),
      (∀ k ∈ acc, GoodKey k) →
      ∀ k ∈ ps.foldl (fallbackStep fb) acc, GoodKey k := by
    intro ps
    induction ps with
    | nil => intro acc h; exact h
    | cons p ps ih => intro acc h; exact ih _ (fallbackStep_good fb hfb acc p h)
  exact hgen parts [] (by intro k hk; exact absurd hk (by simp))

/-- A capture consisting only of letters is fixed by `strip`. -/
theorem cap_edgeClean {n : Nat} {p : Pat}
    (hb : CapsBound (fun c => isUp c || isLo c) n p) {s : List Char}
    {m : MatchRes} (hm : m ∈ finditer p s) :
    EdgeClean (String.mk (getCap n m.caps)) := by
  unfold EdgeClean
  apply edgeClean_of_no_ws
  intro c hc
  exact letter_not_ws c (by
    rw [Bool.or_comm]
    exact finditer_caps hb hm c hc)

end RefCheck

namespace RefCheck

/-- Citation-side invariant: every key the extractor returns has a
non-noise surname of length at least 3 whose first character is fixed by
`upper()`. -/
theorem extract_citations_invariant (text : String) :
    ∀ k ∈ extract_citations_from_text text,
      is_noise k.1 = false ∧ 3 ≤ k.1.length ∧
      k.1.data.headD (' ') = upperC (k.1.data.headD (' ')) := by
  intro k hk
  simp only [extract_citations_from_text] at hk
  rcases List.mem_map.mp hk with ⟨k0, hk0, hke⟩
  suffices hg : GoodKey k0 by
    rw [← hke]
    dsimp only
    exact noise_transfer k0.1 hg.1 hg.2
  simp only [List.mem_append] at hk0
  rcases hk0 with ((((((h1 | h2) | h3) | h4) | h5) | h6) | h7) | h8
  · rcases List.mem_flatMap.mp h1 with ⟨m, hm, hkm⟩
    exact blockKeysInherit_good _ k0 hkm
  · rcases List.mem_flatMap.mp h2 with ⟨m, hm, hkm⟩
    obtain ⟨S, hgS, hS⟩ : ∃ S,
        first_surname (String.mk (stripL (getCap 2 m.caps))) = S ∧
        EdgeClean S := ⟨_, rfl, first_surname_edgeClean _⟩
    rw [hgS] at hkm
    by_cases hn : is_noise S = true
    · rw [if_pos hn] at hkm
      exact absurd hkm (by simp)
    · rw [if_neg hn] at hkm
      rcases List.mem_map.mp hkm with ⟨y, hy, he⟩
      rw [← he]
      exact ⟨Bool.eq_false_iff.mpr hn, hS⟩
  · rcases List.mem_flatMap.mp h3 with ⟨m, hm, hkm⟩
    exact blockKeysFallback_good _ (cap_edgeClean capsb_possessive hm) _ k0 hkm
  · rcases List.mem_flatMap.mp h4 with ⟨m, hm, hkm⟩
    obtain ⟨S, hgS, hS⟩ : ∃ S,
        first_surname (clean_author (String.mk (stripL (getCap 1 m.caps)))) = S ∧
        EdgeClean S := ⟨_, rfl, first_surname_edgeClean _⟩
    rw [hgS] at hkm
    by_cases hn : is_noise S = true
    · rw [if_pos hn] at hkm
      exact absurd hkm (by simp)
    · rw [if_neg hn] at hkm
      simp only [List.mem_singleton] at hkm
      rw [hkm]
      exact ⟨Bool.eq_false_iff.mpr hn, hS⟩
  · rcases List.mem_flatMap.mp h5 with ⟨m, hm, hkm⟩
    exact blockKeysPlain_good _ k0 hkm
  · rcases List.mem_flatMap.mp h6 with ⟨m, hm, hkm⟩
    exact blockKeysFallback_good _ (cap_edgeClean capsb_colleagues hm) _ k0 hkm
  · rcases List.mem_flatMap.mp h7 with ⟨m, hm, hkm⟩
    exact blockKeysFallback_good _ (cap_edgeClean capsb_etalComplex hm) _ k0 hkm
  · rcases List.mem_flatMap.mp h8 with ⟨m, hm, hkm⟩
    obtain ⟨S, hgS, hS⟩ : ∃ S,
        normalize_surname (String.mk (getCap 1 m.caps)) = S ∧
        EdgeClean S := ⟨_, rfl, normalize_surname_edgeClean _⟩
    rw [hgS] at hkm
    by_cases hn : is_noise S = true
    · rw [if_pos hn] at hkm
      exact absurd hkm (by simp)
    · rw [if_neg hn] at hkm
      simp only [List.mem_singleton] at hkm
      rw [hkm]
      exact ⟨Bool.eq_false_iff.mpr hn, hS⟩

/-- Surnames in the auto-assignment output all come from the raw list. -/
theorem autoAssignGo_surname (full : List Key) :
    ∀ (rest : List Key) (tr : List (Key × Nat)) (k : Key),
      k ∈ autoAssignGo full rest tr → ∃ k0 ∈ rest, k.1 = k0.1 := by
  intro rest
  induction rest with
  | nil => intro tr k h; exact absurd h (by simp [autoAssignGo])
  | cons k1 rest ih =>
    intro tr k h
    simp only [autoAssignGo] at h
    by_cases hc : 1 < countBase full (k1.1, strip_year_suffix k1.2) ∧
        ¬ endsLowerDollar k1.2 = true
    · rw [if_pos hc] at h
      rcases List.mem_cons.mp h with h | h
      · exact ⟨k1, List.mem_cons_self _ _, by rw [h]⟩
      · rcases List.mem_cons.mp h with h | h
        · exact ⟨k1, List.mem_cons_self _ _, by rw [h]⟩
        · rcases ih _ k h with ⟨k0, hk0, he⟩
          exact ⟨k0, List.mem_cons_of_mem _ hk0, he⟩
    · rw [if_neg hc] at h
      rcases List.mem_cons.mp h with h | h
      · exact ⟨k1, List.mem_cons_self _ _, by rw [h]⟩
      · rcases ih _ k h with ⟨k0, hk0, he⟩
        exact ⟨k0, List.mem_cons_of_mem _ hk0, he⟩

/-- A parsed reference paragraph's surname is longer than one character. -/
theorem parseRefParagraph_len (p : String) (k : Key)
    (h : parseRefParagraph p = some k) : 1 < k.1.length := by
  simp only [parseRefParagraph] at h
  by_cases h1 : (normalize_text (stripL p.data)).isEmpty = true
  · rw [if_pos h1] at h
    exact absurd h (by simp)
  · rw [if_neg h1] at h
    by_cases h2 : headingTexts.contains
        (String.mk (normalize_text (stripL p.data))) = true
    · rw [if_pos h2] at h
      exact absurd h (by simp)
    · rw [if_neg h2] at h
      rcases hm : reSearch refYearCapRe (normalize_text (stripL p.data))
          with _ | m
      · rw [hm] at h
        exact absurd h (by simp)
      · rw [hm] at h
        dsimp only at h
        generalize hS : String.mk ((splitWs (rstripC ('.')
          (stripL ((splitC (',') (stripL (rstripC (',')
            (stripL ((normalize_text (stripL p.data)).takeWhile
              (fun c => c ≠ '(')))))).headD [])))).headD []) = S at h
        by_cases h4 : 1 < S.length
        · rw [if_pos h4] at h
          simp only [Option.some.injEq] at h
          rw [← h]
          exact h4
        · rw [if_neg h4] at h
          exact absurd h (by simp)

/-- Reference-side invariant: every stored reference key has a surname of
length at least 2. -/
theorem extract_references_len (paras : List String) :
    ∀ k ∈ extract_references_from_doc paras, 2 ≤ k.1.length := by
  intro k hk
  unfold extract_references_from_doc auto_assign at hk
  rcases autoAssignGo_surname _ _ _ k hk with ⟨k0, hk0, he⟩
  unfold extract_references_raw at hk0
  rcases List.mem_filterMap.mp hk0 with ⟨p, _, hp⟩
  have := parseRefParagraph_len p k0 hp
  rw [he]
  omega

end RefCheck

namespace RefCheck

/-! ## Claim C5: key invariants of the two stored sets -/

set_option maxRecDepth 40000

/-- C5 (counterexample): the claimed invariant fails for the reference
set: the bibliography entry `"de Marneffe, P. (2004)."` stores the key
`(de, 2004)`, whose surname is a noise word (its length is at most 2) and
is shorter than 3 characters; `extract_references_from_doc` checks only
that the surname is longer than one character and never runs the noise
filter or capitalization. -/
theorem c5_invariant_counterexample :
    (("de", "2004") : Key) ∈
      extract_references_from_doc [("de Marneffe, P. (2004).")] ∧
    is_noise (("de", "2004") : Key).1 = true ∧
    (("de", "2004") : Key).1.length < 3 := by decide

/-- C5 (amended): the invariant holds in full for the citation set: every
key `extract_citations_from_text` returns has a surname that is not a
noise word, is at least 3 characters long, and starts with a character
fixed by `upper()`.  The reference set only guarantees that the surname is
at least 2 characters long. -/
theorem c5_key_invariants :
    (∀ (text : String) (k : Key), k ∈ extract_citations_from_text text →
      is_noise k.1 = false ∧ 3 ≤ k.1.length ∧
      k.1.data.headD (' ') = upperC (k.1.data.headD (' '))) ∧
    (∀ (paras : List String) (k : Key),
      k ∈ extract_references_from_doc paras → 2 ≤ k.1.length) :=
  ⟨fun text k hk => extract_citations_invariant text k hk,
   fun paras k hk => extract_references_len paras k hk⟩

/-- C5 (witness): the amended invariants at the citation key
`(Freud, 1912)` extracted from `"(Freud, 1912)"` and the reference key
`(Klein, 1946)` extracted from `"Klein, M. (1946)."`. -/
theorem c5_key_invariants_witness :
    is_noise ((("Freud", "1912") : Key)).1 = false ∧
    3 ≤ ((("Freud", "1912") : Key)).1.length ∧
    ((("Freud", "1912") : Key)).1.data.headD (' ') =
      upperC (((("Freud", "1912") : Key)).1.data.headD (' ')) ∧
    2 ≤ ((("Klein", "1946") : Key)).1.length := by
  have h1 := c5_key_invariants.1 ("(Freud, 1912)") (("Freud", "1912"))
    (by decide)
  have h2 := c5_key_invariants.2 [("Klein, M. (1946).")] (("Klein", "1946"))
    (by decide)
  exact ⟨h1.1, h1.2.1, h1.2.2, h2⟩

end RefCheck
